import Mathlib

/-!
Verification of the XDNA binary sequence-file codec (`Bio/SeqIO/XdnaIO.py`).

The embedding models byte streams as `List Nat` (one entry per byte) and
Python ASCII strings as their byte lists.  Pure helper functions of the
source (`_read`, `_read_pstring`, `_read_pstring_as_integer`,
`_read_overhang`, `_parse_feature_description`, `_read_feature`,
`XdnaIterator`, `XdnaWriter.write_file`, `XdnaWriter._write_pstring`)
become Lean functions of the same structure; the handle-based sequential
reads become explicit threading of the remaining byte list, and raised
exceptions become `Except` errors (so an error carries no partial record
and no partial output, exactly as a raised exception does).

Python `dict` objects (feature qualifiers) are modelled as association
lists with insertion-order semantics: assignment to an existing key
updates the value in place, assignment to a fresh key appends at the end,
which is exactly the observable behaviour of an insertion-ordered dict.

The qualifier regular expression `^([^=]+)="([^"]+)"?$` is modelled
structurally in `matchQualifierLine`; `int(...)` is modelled by
`parseInt` on the ASCII forms `[-+]?[0-9]+` (the forms the codec itself
produces via `str(...)`).

The `SeqRecord` / `SeqFeature` / `Alphabet` containers are external to
the repository; their fields used by this codec are modelled from the
spec's data model (molecule kind as a four-valued tag, topology as an
optional string stored under the single key the codec touches, feature
positions as exact-or-fuzzy integer positions, strand as an integer).
-/

namespace Xdna

/-- A byte stream: one `Nat` (0–255) per byte. -/
abbrev Bytes := List Nat

/-- ASCII bytes of a Lean string literal (helper for concrete inputs). -/
def ascii (s : String) : Bytes := s.toList.map Char.toNat

/-- Errors raised by `XdnaIterator` (decoder): `ValueError` exceptions of
the source, split by message. -/
inductive DecodeError
  | truncated            -- "Cannot read %d bytes from handle"
  | unsupportedVersion   -- "Unsupported XDNA version"
  | unknownSequenceType  -- "Unknown sequence type"
  | malformedInteger     -- int() raising ValueError on a non-integer P-string
deriving DecidableEq, Repr

/-- Errors raised by `XdnaWriter.write_file`. -/
inductive EncodeError
  | emptyInput       -- "Must have one sequence"
  | tooManyRecords   -- "More than one sequence found"
  | packOverflow     -- struct.error when a 4-byte length field overflows
  | labelIndexError  -- IndexError from qualifiers.get("label", [""])[0] on a stored empty list
deriving DecidableEq, Repr

/-- Warnings emitted by `XdnaWriter.write_file` (BiopythonWarning). -/
inductive EncodeWarning
  | droppedFuzzy (n : Nat)     -- "Dropping %d features with fuzzy locations"
  | tooManyFeatures (n : Nat)  -- "Too many features, dropping the last %d"
  | stringsTruncated           -- "Some annotations were truncated to 255 characters"
deriving DecidableEq, Repr

/-- Modelled from the spec: the molecule kind carried by the external
sequence alphabet (`Bio.Alphabet`), the only aspect the codec reads. -/
inductive MoleculeKind
  | unknown | dna | rna | protein
deriving DecidableEq, Repr

/-- Modelled from the spec: a feature coordinate of the external
`Bio.SeqFeature` model — either an exact integer position or a fuzzy
position (any non-`ExactPosition` subclass), both carrying a number. -/
inductive Position
  | exact (pos : Int)
  | fuzzy (pos : Int)
deriving DecidableEq, Repr

/-- The `.position` attribute used by the writer. -/
def Position.position : Position → Int
  | .exact p => p
  | .fuzzy p => p

/-- The writer's `type(...) == ExactPosition` test. -/
def Position.isExact : Position → Bool
  | .exact _ => true
  | .fuzzy _ => false

/-- Modelled from the spec: the external `SeqFeature` fields this codec
reads or writes.  `qualifiers` is an insertion-ordered dict from
qualifier name to a list of string values. -/
structure Feature where
  startPos : Position
  endPos : Position
  strand : Int
  type : Bytes
  qualifiers : List (Bytes × List Bytes)
deriving DecidableEq, Repr

/-- Modelled from the spec: the external `SeqRecord` fields this codec
reads or writes.  `topology` is `record.annotations["topology"]`, the
only record-level key the codec touches. -/
structure SeqRecord where
  seq : Bytes
  molecule : MoleculeKind
  id : Bytes
  name : Bytes
  description : Bytes
  topology : Option Bytes
  features : List Feature
deriving DecidableEq, Repr

/-! ## Integer text: `int(...)` and `str(...)` on the wire forms -/

/-- The ASCII bytes Python's `int(...)` strips as surrounding whitespace
(the ASCII range of `str.isspace`: HT..CR, FS..US, and space). -/
def isSpaceByte (b : Nat) : Bool :=
  decide (9 ≤ b ∧ b ≤ 13) || decide (28 ≤ b ∧ b ≤ 31) || b == 32

/-- No two adjacent underscore bytes. -/
def noDoubleUnderscore : Bytes → Bool
  | [] => true
  | [_] => true
  | a :: b :: t => !(a == 95 && b == 95) && noDoubleUnderscore (b :: t)

/-- The digit run of Python `int(...)`: decimal digits with optional
underscore grouping — an underscore may only stand between two digits
(`int("1_0") = 10`, while `"_1"`, `"1_"` and `"1__0"` are rejected). -/
def parseDigits (bs : Bytes) : Option Nat :=
  if bs = [] then none
  else if bs.all (fun b => decide (48 ≤ b ∧ b ≤ 57) || b == 95)
      && decide (48 ≤ bs.headD 0 ∧ bs.headD 0 ≤ 57)
      && decide (48 ≤ bs.getLastD 0 ∧ bs.getLastD 0 ≤ 57)
      && noDoubleUnderscore bs then
    some ((bs.filter (fun b => decide (48 ≤ b ∧ b ≤ 57))).foldl
      (fun a b => a * 10 + (b - 48)) 0)
  else none

/-- Strip leading and trailing whitespace bytes, as `int(...)` does. -/
def stripSpaces (bs : Bytes) : Bytes :=
  ((bs.dropWhile isSpaceByte).reverse.dropWhile isSpaceByte).reverse

/-- Python `int(...)` on ASCII byte strings: surrounding whitespace is
ignored, then an optional sign, then a non-empty digit run with
optional underscore grouping. -/
def parseInt (bs : Bytes) : Option Int :=
  match stripSpaces bs with
  | [] => none
  | b :: rest =>
    if b = 45 then (parseDigits rest).map (fun n => -(n : Int))
    else if b = 43 then (parseDigits rest).map (fun n => (n : Int))
    else (parseDigits (b :: rest)).map (fun n => (n : Int))

/-- Digit loop with explicit fuel (kept structural so that concrete
inputs evaluate inside the kernel); `natDigits` supplies enough fuel. -/
def natDigitsAux : Nat → Nat → Bytes
  | 0, _ => []
  | fuel + 1, n =>
    if n < 10 then [48 + n]
    else natDigitsAux fuel (n / 10) ++ [48 + n % 10]

/-- Decimal digits of a natural number (ASCII codes), most significant
first: the digits of Python `str(n)`. -/
def natDigits (n : Nat) : Bytes := natDigitsAux (n + 1) n

/-- Python `str(x)` for an integer `x`. -/
def intRepr (x : Int) : Bytes :=
  if x < 0 then 45 :: natDigits x.natAbs else natDigits x.natAbs

/-! ## 4-byte big-endian integers (`struct` `">I"`) -/

/-- `pack(">I", n)`: four big-endian bytes of `n < 2^32`. -/
def pack32 (n : Nat) : Bytes :=
  [n / 16777216 % 256, n / 65536 % 256, n / 256 % 256, n % 256]

/-- `unpack(">I", ...)` applied to four bytes. -/
def unpack32 (a b c d : Nat) : Nat := ((a * 256 + b) * 256 + c) * 256 + d

/-! ## Decoder (`XdnaIterator` and its helpers) -/

/-- `_read(handle, length)`: return exactly `n` bytes or fail. -/
def readBytes (n : Nat) (bs : Bytes) : Except DecodeError (Bytes × Bytes) :=
  if bs.length < n then .error .truncated
  else .ok (bs.take n, bs.drop n)

/-- `_read_pstring`: one length byte, then that many bytes. -/
def readPstring (bs : Bytes) : Except DecodeError (Bytes × Bytes) :=
  match readBytes 1 bs with
  | .error e => .error e
  | .ok (lb, bs) => readBytes (lb.headD 0) bs

/-- `_read_pstring_as_integer`. -/
def readPstringAsInteger (bs : Bytes) : Except DecodeError (Int × Bytes) :=
  match readPstring bs with
  | .error e => .error e
  | .ok (s, bs) =>
    match parseInt s with
    | some n => .ok (n, bs)
    | none => .error .malformedInteger

/-- `_read_overhang`: a P-string holding a signed decimal length; when it
is nonzero, `abs(length)` further bytes of overhang sequence. -/
def readOverhang (bs : Bytes) :
    Except DecodeError ((Option Int × Option Bytes) × Bytes) :=
  match readPstringAsInteger bs with
  | .error e => .error e
  | .ok (len, bs) =>
    if len ≠ 0 then
      match readBytes len.natAbs bs with
      | .error e => .error e
      | .ok (ov, bs) => .ok ((some len, some ov), bs)
    else .ok ((none, none), bs)

/-- `desc.split("\x0D")`: split a byte list on a separator byte, keeping
empty pieces (Python `str.split` with an explicit separator). -/
def splitByte (sep : Nat) : Bytes → List Bytes
  | [] => [[]]
  | b :: rest =>
    let r := splitByte sep rest
    if b = sep then [] :: r
    else
      match r with
      | [] => [[b]]
      | h :: t => (b :: h) :: t

/-- Insertion-ordered dict assignment `q[k] = v`: update in place when
the key exists, else append at the end. -/
def dictSet (q : List (Bytes × List Bytes)) (k : Bytes) (v : List Bytes) :
    List (Bytes × List Bytes) :=
  match q with
  | [] => [(k, v)]
  | (k', v') :: rest => if k' = k then (k, v) :: rest else (k', v') :: dictSet rest k v

/-- Dict lookup `q.get(k)`. -/
def dictGet (q : List (Bytes × List Bytes)) (k : Bytes) : Option (List Bytes) :=
  match q with
  | [] => none
  | (k', v') :: rest => if k' = k then some v' else dictGet rest k

/-- The regular expression `^([^=]+)="([^"]+)"?$` of
`_parse_feature_description`, modelled structurally: a non-empty run of
non-`=` bytes, then `="`, then a non-empty run of non-`"` bytes
(greedy, so a quote-free tail — line-feeds included — belongs to the
value), then an optional closing quote, then end of line, where, as
with Python's `$`, end of line also matches just before one final
line-feed byte.  After the greedy value run the remainder is empty or
starts with a quote, so the accepted remainders are exactly `""`, `"\""`
and `"\"\n"`.  Returns the two groups. -/
def matchQualifierLine (line : Bytes) : Option (Bytes × Bytes) :=
  let qual := line.takeWhile (fun b => b != 61)
  match line.dropWhile (fun b => b != 61) with
  | 61 :: 34 :: rest2 =>
    if qual = [] then none
    else
      let value := rest2.takeWhile (fun b => b != 34)
      if value = [] then none
      else
        match rest2.drop value.length with
        | [] => some (qual, value)
        | [34] => some (qual, value)
        | [34, 10] => some (qual, value)
        | _ => none
  | _ => none

/-- The loop body of `_parse_feature_description` for one line: a
`key="value"` line assigns `qualifiers[key] = [value]`; a non-matching
line without a `"` assigns `qualifiers["note"] = [line]`; every other
line is dropped. -/
def descStep (q : List (Bytes × List Bytes)) (line : Bytes) :
    List (Bytes × List Bytes) :=
  match matchQualifierLine line with
  | some (k, v) => dictSet q k [v]
  | none => if 34 ∈ line then q else dictSet q (ascii "note") [line]

/-- `_parse_feature_description`: walk the CR-separated non-empty lines
of the description, applying `descStep` to each. -/
def parseFeatureDescription (desc : Bytes) (qualifiers : List (Bytes × List Bytes)) :
    List (Bytes × List Bytes) :=
  ((splitByte 13 desc).filter (fun l => 0 < l.length)).foldl descStep qualifiers

/-- `_read_feature`: five P-strings (name, description, type, start text,
end text), four flag bytes, and a skipped colour P-string; an empty type
defaults to `misc_feature`; a zero strand-flag byte means reverse strand
with wire start/end swapped; positions are shifted from 1-based wire
coordinates to a 0-based half-open range. -/
def readFeature (bs : Bytes) : Except DecodeError (Feature × Bytes) :=
  match readPstring bs with
  | .error e => .error e
  | .ok (name, bs) =>
  match readPstring bs with
  | .error e => .error e
  | .ok (desc, bs) =>
  match readPstring bs with
  | .error e => .error e
  | .ok (type0, bs) =>
  match readPstringAsInteger bs with
  | .error e => .error e
  | .ok (start0, bs) =>
  match readPstringAsInteger bs with
  | .error e => .error e
  | .ok (end0, bs) =>
  match readBytes 4 bs with
  | .error e => .error e
  | .ok (flags, bs) =>
  match readPstring bs with  -- colour triplet, skipped
  | .error e => .error e
  | .ok (_, bs) =>
    let forward := flags.headD 0
    let strand : Int := if forward ≠ 0 then 1 else -1
    let start1 := if forward ≠ 0 then start0 else end0
    let end1 := if forward ≠ 0 then end0 else start0
    let type := if type0 = [] then ascii "misc_feature" else type0
    let q0 : List (Bytes × List Bytes) :=
      if name ≠ [] then [(ascii "label", [name])] else []
    let qualifiers := parseFeatureDescription desc q0
    .ok ({ startPos := .exact (start1 - 1), endPos := .exact end1,
           strand := strand, type := type, qualifiers := qualifiers }, bs)

/-- The `while num_features > 0` loop of `XdnaIterator`. -/
def readFeatures : Nat → Bytes → Except DecodeError (List Feature × Bytes)
  | 0, bs => .ok ([], bs)
  | n + 1, bs =>
    match readFeature bs with
    | .error e => .error e
    | .ok (f, bs) =>
      match readFeatures n bs with
      | .error e => .error e
      | .ok (fs, bs) => .ok (f :: fs, bs)

/-- The `_seq_types` table. -/
def seqTypeOfCode (c : Nat) : Option MoleculeKind :=
  match c with
  | 0 => some .unknown
  | 1 => some .dna
  | 2 => some .dna
  | 3 => some .rna
  | 4 => some .protein
  | _ => none

/-- The `_seq_topologies` table. -/
def topologyOfCode (c : Nat) : Option Bytes :=
  match c with
  | 0 => some (ascii "linear")
  | 1 => some (ascii "circular")
  | _ => none

/-- The optional trailing section of `XdnaIterator`: if the stream ended,
no features; otherwise one marker byte, two overhangs (skipped), a
feature-count byte, then that many feature records. -/
def decodeOptionalSection (bs : Bytes) : Except DecodeError (List Feature) :=
  match bs with
  | [] => .ok []
  | _ :: bs2 =>
    match readOverhang bs2 with
    | .error e => .error e
    | .ok (_, bs2) =>
    match readOverhang bs2 with
    | .error e => .error e
    | .ok (_, bs2) =>
    match readBytes 1 bs2 with
    | .error e => .error e
    | .ok (cnt, bs2) =>
    match readFeatures (cnt.headD 0) bs2 with
    | .error e => .error e
    | .ok (features, _) => .ok features

/-- `XdnaIterator`: the whole decoder.  The 112-byte header (read via the
external `_read_header`, modelled from the spec as an exact read) yields
version, type code, topology code, sequence length and comment length at
fixed offsets; version must be 0 and the type code must be in the type
table; the record name/id is the comment up to the first space; an
unrecognized topology code leaves the topology field unset. -/
def decode (bs : Bytes) : Except DecodeError SeqRecord :=
  match readBytes 112 bs with
  | .error e => .error e
  | .ok (header, bs) =>
    let version := header.getD 0 0
    let typeCode := header.getD 1 0
    let topologyCode := header.getD 2 0
    let length := unpack32 (header.getD 28 0) (header.getD 29 0)
      (header.getD 30 0) (header.getD 31 0)
    let comLength := unpack32 (header.getD 96 0) (header.getD 97 0)
      (header.getD 98 0) (header.getD 99 0)
    if version ≠ 0 then .error .unsupportedVersion
    else
      match seqTypeOfCode typeCode with
      | none => .error .unknownSequenceType
      | some molecule =>
        match readBytes length bs with
        | .error e => .error e
        | .ok (sequence, bs) =>
        match readBytes comLength bs with
        | .error e => .error e
        | .ok (comment, bs) =>
          let name := comment.takeWhile (fun b => b != 32)
          match decodeOptionalSection bs with
          | .error e => .error e
          | .ok features =>
            .ok { seq := sequence, molecule := molecule, id := name,
                  name := name, description := comment,
                  topology := topologyOfCode topologyCode,
                  features := features }

/-! ## Encoder (`XdnaWriter`) -/

/-- `_write_pstring`: the bytes written for a P-string — payloads longer
than 255 bytes are truncated to their first 255 bytes, then a length byte
and the payload are written. -/
def pstringBytes (s : Bytes) : Bytes := min s.length 255 :: s.take 255

/-- Whether `_write_pstring` sets `_has_truncated_strings` for `s`. -/
def pstringTrunc (s : Bytes) : Bool := decide (255 < s.length)

/-- The comment written by the encoder: the description verbatim when it
already starts with the id, else `id + " " + description`. -/
def commentOf (r : SeqRecord) : Bytes :=
  if r.description.take r.id.length = r.id then r.description
  else r.id ++ 32 :: r.description

/-- The alphabet-to-type-code mapping of the writer. -/
def seqTypeCode (m : MoleculeKind) : Nat :=
  match m with
  | .dna => 1
  | .rna => 3
  | .protein => 4
  | .unknown => 0

/-- `record.annotations.get("topology", "linear") == "circular"`. -/
def topologyCodeOf (r : SeqRecord) : Nat :=
  if r.topology.getD (ascii "linear") = ascii "circular" then 1 else 0

/-- The 112-byte header written by `pack(">BBB25xII60xI11xB", ...)`. -/
def headerBytes (seqtype topology seqLen comLen : Nat) : Bytes :=
  [0, seqtype, topology] ++ List.replicate 25 0 ++ pack32 seqLen ++ pack32 0
    ++ List.replicate 60 0 ++ pack32 comLen ++ List.replicate 11 0 ++ [255]

/-- The writer's fuzzy-location filter:
`type(start) == ExactPosition and type(end) == ExactPosition`. -/
def isExactFeature (f : Feature) : Bool :=
  f.startPos.isExact && f.endPos.isExact

/-- The features actually written: exact-location features, capped at
255 entries in original order. -/
def keptFeatures (r : SeqRecord) : List Feature :=
  (r.features.filter isExactFeature).take 255

/-- Whether a feature stores `qualifiers["label"] = []`: on such a
feature the writer's `qualifiers.get("label", [""])[0]` raises an
IndexError; `encode` turns this into `labelIndexError` whenever such a
feature is among those written. -/
def labelIndexErrorOn (f : Feature) : Bool :=
  decide (dictGet f.qualifiers (ascii "label") = some [])

/-- `feature.qualifiers.get("label", [""])[0]`.  The stored-empty-list
case (where the source raises an IndexError) is unreachable here: the
`encode` wrapper rejects such records with `labelIndexError` before
this function's value is used, and the decoder never stores an empty
list. -/
def featureLabel (f : Feature) : Bytes :=
  ((dictGet f.qualifiers (ascii "label")).getD [[]]).headD []

/-- CR-joined lines, mirroring the writer's incremental
`description = description + "\x0D" + part` build. -/
def joinLinesCR : List Bytes → Bytes
  | [] => []
  | [l] => l
  | l :: ls => l ++ 13 :: joinLinesCR ls

/-- One `key="value"` piece of the re-synthesized description. -/
def mkQualLine (k v : Bytes) : Bytes := k ++ (61 :: 34 :: (v ++ [34]))

/-- The `key="value"` pieces the writer synthesizes for a feature: every
value of every qualifier except `label` and `translation`, in dict
order. -/
def descParts (f : Feature) : List Bytes :=
  (f.qualifiers.filter
      (fun kv => decide (kv.1 ≠ ascii "label") && decide (kv.1 ≠ ascii "translation"))).flatMap
    (fun kv => kv.2.map (fun v => mkQualLine kv.1 v))

/-- The description field re-synthesized by the writer: the pieces,
CR-joined. -/
def featureWireDescription (f : Feature) : Bytes :=
  joinLinesCR (descParts f)

/-- The wire start/end texts and strand-flag byte of a feature: 1-based
start, inclusive end, swapped with flag byte 0 on the reverse strand. -/
def featureWire (f : Feature) : Int × Int × Nat :=
  let start := f.startPos.position + 1
  let «end» := f.endPos.position
  if f.strand = -1 then («end», start, 0) else (start, «end», 1)

/-- The bytes the writer emits for one feature (label, description,
type, start text, end text as P-strings, four flag bytes, colour
P-string), together with whether any of its P-strings was truncated. -/
def writeFeature (f : Feature) : Bytes × Bool :=
  (pstringBytes (featureLabel f) ++ pstringBytes (featureWireDescription f)
     ++ pstringBytes f.type ++ pstringBytes (intRepr (featureWire f).1)
     ++ pstringBytes (intRepr (featureWire f).2.1)
     ++ [(featureWire f).2.2, 1, 0, 1] ++ pstringBytes (ascii "127,127,127"),
   [featureLabel f, featureWireDescription f, f.type, intRepr (featureWire f).1,
    intRepr (featureWire f).2.1, ascii "127,127,127"].any pstringTrunc)

/-- The output of a successful `write_file`: the byte stream and the
warnings reported (in emission order). -/
structure EncodeResult where
  bytes : Bytes
  warnings : List EncodeWarning
deriving DecidableEq, Repr

/-- The body of `write_file` for its single record: header, residues,
comment, marker byte, two `"0"` overhang placeholders, feature count,
feature records; fuzzy-location features are dropped (warned), the
remainder capped at 255 (warned), and a single aggregated truncation
warning is emitted at the end when any P-string was truncated. -/
def encodeRecord (r : SeqRecord) : EncodeResult :=
  let filtered := r.features.filter isExactFeature
  let dropFuzzy := r.features.length - filtered.length
  let w1 : List EncodeWarning :=
    if 0 < dropFuzzy then [.droppedFuzzy dropFuzzy] else []
  let w2 : List EncodeWarning :=
    if 255 < filtered.length then [.tooManyFeatures (filtered.length - 255)] else []
  let kept := keptFeatures r
  let featData := kept.map writeFeature
  let w3 : List EncodeWarning :=
    if featData.any (fun p => p.2) then [.stringsTruncated] else []
  { bytes := headerBytes (seqTypeCode r.molecule) (topologyCodeOf r)
        r.seq.length (commentOf r).length
      ++ r.seq ++ commentOf r ++ [0]
      ++ pstringBytes (ascii "0") ++ pstringBytes (ascii "0")
      ++ [kept.length] ++ (featData.map (fun p => p.1)).flatten,
    warnings := w1 ++ w2 ++ w3 }

/-- `XdnaWriter.write_file`: fails on zero records or more than one
record before writing anything; the 4-byte length fields must fit
(`struct.error` otherwise, raised while packing the header, also before
any byte reaches the stream); and a written feature storing
`qualifiers["label"] = []` raises an IndexError in the source (during
the feature loop, so after earlier bytes reached the stream — the
error value models the raise; no claim concerns the partial prefix). -/
def encode (records : List SeqRecord) : Except EncodeError EncodeResult :=
  match records with
  | [] => .error .emptyInput
  | _ :: _ :: _ => .error .tooManyRecords
  | [record] =>
    if record.seq.length < 4294967296 ∧ (commentOf record).length < 4294967296
    then
      if (keptFeatures record).any labelIndexErrorOn
      then .error .labelIndexError
      else .ok (encodeRecord record)
    else .error .packOverflow

/-! ## Concrete inputs used by witnesses and counterexamples -/

/-- A minimal record: empty sequence, no features. -/
def sampleRecord : SeqRecord :=
  { seq := [], molecule := .unknown, id := [], name := [], description := [],
    topology := none, features := [] }

/-- The successful result of an encode, with a dummy fallback. -/
def encResOf (records : List SeqRecord) : EncodeResult :=
  match encode records with
  | .ok res => res
  | .error _ => { bytes := [], warnings := [] }

/-- A well-behaved feature: exact coordinates, reverse strand, non-empty
type, a label and one extra qualifier. -/
def goodFeature : Feature :=
  { startPos := .exact 4, endPos := .exact 10, strand := -1, type := ascii "CDS",
    qualifiers := [(ascii "label", [ascii "foo"]), (ascii "gene", [ascii "abc"])] }

/-- A well-behaved single-feature record. -/
def goodRecord : SeqRecord :=
  { seq := ascii "ACGTACGT", molecule := .dna, id := ascii "plasmid",
    name := ascii "plasmid", description := ascii "plasmid demo",
    topology := some (ascii "circular"), features := [goodFeature] }

/-- A record whose only feature has an empty type string (and otherwise
satisfies every representability limit of the format). -/
def emptyTypeRecord : SeqRecord :=
  { seq := ascii "ACGT", molecule := .dna, id := ascii "x", name := ascii "x",
    description := ascii "x", topology := some (ascii "linear"),
    features := [{ startPos := .exact 4, endPos := .exact 10, strand := 1,
                   type := [], qualifiers := [] }] }

/-- A record whose only feature carries a label `"foo"` and a `note`
qualifier value containing a CR and a quote, so the re-synthesized
description contains a `label="evil"` line. -/
def labelClobberRecord : SeqRecord :=
  { seq := ascii "ACGT", molecule := .dna, id := ascii "x", name := ascii "x",
    description := ascii "x", topology := some (ascii "linear"),
    features := [{ startPos := .exact 4, endPos := .exact 10, strand := 1,
                   type := ascii "t",
                   qualifiers := [(ascii "label", [ascii "foo"]),
                                  (ascii "note", [ascii "x\x0Dlabel=\x22evil"])] }] }

/-- A record whose only feature ends at position `10^255`, whose
256-digit wire coordinate text does not fit a P-string. -/
def hugeCoordRecord : SeqRecord :=
  { seq := ascii "A", molecule := .dna, id := ascii "x", name := ascii "x",
    description := ascii "x", topology := some (ascii "linear"),
    features := [{ startPos := .exact 0, endPos := .exact (10 ^ 255), strand := 1,
                   type := ascii "t", qualifiers := [] }] }

/-- A record with one exact-location feature carrying a 300-byte label
and one fuzzy-location feature. -/
def truncRecord : SeqRecord :=
  { seq := [65], molecule := .rna, id := [], name := [], description := [],
    topology := none,
    features := [{ startPos := .exact 0, endPos := .exact 1, strand := 1,
                   type := ascii "t",
                   qualifiers := [(ascii "label", [List.replicate 300 65])] },
                 { startPos := .fuzzy 0, endPos := .exact 1, strand := 1,
                   type := ascii "t", qualifiers := [] }] }

/-- The feature decoded back from the wire form of `goodFeature`. -/
def decodedGoodFeature : Feature :=
  match readFeature (writeFeature goodFeature).1 with
  | .ok (f, _) => f
  | .error _ => { startPos := .exact 0, endPos := .exact 0, strand := 1,
                  type := [], qualifiers := [] }

/-- The wire bytes of one feature record: name, description, type,
start text, end text as P-strings, four flag bytes, colour P-string. -/
def featureWireBytes (name desc ty : Bytes) (s e : Int) (f1 b2 b3 b4 : Nat)
    (color : Bytes) : Bytes :=
  pstringBytes name ++ pstringBytes desc ++ pstringBytes ty
    ++ pstringBytes (intRepr s) ++ pstringBytes (intRepr e)
    ++ [f1, b2, b3, b4] ++ pstringBytes color

/-- A 112-byte header with the given type and topology codes and zero
sequence and comment lengths (and no body after it). -/
def bareHeader (st tp : Nat) : Bytes := headerBytes st tp 0 0

/-! ## Views and hypotheses used by the round-trip statements -/

/-- The feature fields the round-trip claim is about: logical range
(start and end positions), strand, type, and label (the spec's
`Feature.label`, which the writer reads as `qualifiers["label"][0]` with
`""` for an absent label and the reader stores back under `"label"` when
non-empty). -/
def featureView (f : Feature) : Position × Position × Int × Bytes × Bytes :=
  (f.startPos, f.endPos, f.strand, f.type, featureLabel f)

/-- A feature within the format's representable range: exact
coordinates whose wire decimal texts fit a P-string (`xdna_C1_counterexample`
shows truncation of a longer coordinate text changes the decoded
range), a two-valued strand, a non-empty type fitting a P-string
(`xdna_C1_counterexample` shows an empty type decodes as the default),
a label fitting a P-string, no stored empty label list (on which the
writer raises an IndexError), and qualifier keys/values free of the
equals, quote and CR bytes through which the description round-trip
can rewrite the label (`xdna_C1_counterexample` shows CR plus quote in
a qualifier value overwriting the label). -/
structure GoodFeature (f : Feature) : Prop where
  startIsExact : f.startPos.isExact = true
  endIsExact : f.endPos.isExact = true
  strandOK : f.strand = 1 ∨ f.strand = -1
  typeNe : f.type ≠ []
  typeLen : f.type.length ≤ 255
  labelLen : (featureLabel f).length ≤ 255
  labelOk : labelIndexErrorOn f = false
  startLen : (intRepr (f.startPos.position + 1)).length ≤ 255
  endLen : (intRepr f.endPos.position).length ≤ 255
  qualsClean : ∀ kv ∈ f.qualifiers, kv.1 ≠ ascii "label" →
    kv.1 ≠ ascii "translation" →
    61 ∉ kv.1 ∧ 34 ∉ kv.1 ∧ 13 ∉ kv.1 ∧ ∀ v ∈ kv.2, 34 ∉ v ∧ 13 ∉ v

/-! ## Framing lemmas -/

theorem readBytes_exact {a : Bytes} {n : Nat} (b : Bytes) (h : a.length = n) :
    readBytes n (a ++ b) = .ok (a, b) := by
  subst h
  simp [readBytes, List.take_left, List.drop_left]

theorem readBytes_short {n : Nat} {bs : Bytes} (h : bs.length < n) :
    readBytes n bs = .error .truncated := by
  simp [readBytes, h]

theorem readBytes_one (b : Nat) (bs : Bytes) :
    readBytes 1 (b :: bs) = .ok ([b], bs) := by
  simp [readBytes]

theorem pstringBytes_of_le {s : Bytes} (h : s.length ≤ 255) :
    pstringBytes s = s.length :: s := by
  simp [pstringBytes, Nat.min_eq_left h, List.take_of_length_le h]

theorem readPstring_encode {s : Bytes} (r : Bytes) (h : s.length ≤ 255) :
    readPstring (pstringBytes s ++ r) = .ok (s, r) := by
  rw [pstringBytes_of_le h]
  show readPstring (([s.length] ++ s) ++ r) = .ok (s, r)
  rw [List.append_assoc]
  unfold readPstring
  rw [readBytes_exact (s ++ r) (by simp)]
  simpa using readBytes_exact r rfl

theorem readPstring_pstringBytes (s rest : Bytes) :
    readPstring (pstringBytes s ++ rest) = .ok (s.take 255, rest) := by
  show readPstring ((min s.length 255 :: s.take 255) ++ rest) = _
  rw [show ((min s.length 255 :: s.take 255) ++ rest : Bytes)
      = [min s.length 255] ++ (s.take 255 ++ rest) from by simp]
  unfold readPstring
  rw [readBytes_exact (s.take 255 ++ rest)
    (by rfl : ([min s.length 255] : Bytes).length = 1)]
  dsimp only
  rw [show ([min s.length 255] : Bytes).headD 0 = min s.length 255 from rfl]
  have hlen : (s.take 255).length = min s.length 255 := by
    rw [List.length_take, Nat.min_comm]
  rw [← hlen]
  exact readBytes_exact rest rfl

/-! ## Decimal text lemmas -/

theorem natDigitsAux_congr :
    ∀ f₁ f₂ n, n < f₁ → n < f₂ → natDigitsAux f₁ n = natDigitsAux f₂ n := by
  intro f₁
  induction f₁ with
  | zero => intro f₂ n h1; omega
  | succ f ih =>
    intro f₂ n h1 h2
    match f₂, h2 with
    | f₂' + 1, h2 =>
      show (if n < 10 then _ else _) = (if n < 10 then _ else _)
      split
      · rfl
      · next h10 => rw [ih f₂' (n / 10) (by omega) (by omega)]

theorem natDigits_eq (n : Nat) :
    natDigits n = if n < 10 then [48 + n]
      else natDigits (n / 10) ++ [48 + n % 10] := by
  show (if n < 10 then _ else natDigitsAux n (n / 10) ++ _) = _
  split
  · rfl
  · next h =>
    rw [natDigitsAux_congr n (n / 10 + 1) (n / 10) (by omega) (by omega)]
    rfl

theorem natDigits_ne_nil (n : Nat) : natDigits n ≠ [] := by
  rw [natDigits_eq]
  split <;> simp

theorem natDigits_digits (n : Nat) :
    ∀ b ∈ natDigits n, 48 ≤ b ∧ b ≤ 57 := by
  induction n using Nat.strong_induction_on with
  | _ n ih =>
    rw [natDigits_eq]
    split
    · next h => intro b hb; simp at hb; omega
    · next h =>
      intro b hb
      rw [List.mem_append] at hb
      rcases hb with hb | hb
      · exact ih (n / 10) (by omega) b hb
      · simp at hb; omega

theorem natDigits_foldl (n : Nat) :
    (natDigits n).foldl (fun a b => a * 10 + (b - 48)) 0 = n := by
  induction n using Nat.strong_induction_on with
  | _ n ih =>
    rw [natDigits_eq]
    split
    · next h => simp
    · next h =>
      rw [List.foldl_append, ih (n / 10) (by omega)]
      simp; omega

theorem getLastD_mem : ∀ {bs : Bytes}, bs ≠ [] → bs.getLastD 0 ∈ bs := by
  intro bs
  induction bs with
  | nil => intro h; exact absurd rfl h
  | cons a t ih =>
    intro _
    cases t with
    | nil => simp [List.getLastD]
    | cons b t2 =>
      rw [show (a :: b :: t2).getLastD 0 = (b :: t2).getLastD 0 from rfl]
      exact List.mem_cons_of_mem a (ih (by simp))

theorem noDoubleUnderscore_digits {bs : Bytes}
    (h : ∀ b ∈ bs, 48 ≤ b ∧ b ≤ 57) : noDoubleUnderscore bs = true := by
  induction bs with
  | nil => rfl
  | cons a t ih =>
    cases t with
    | nil => rfl
    | cons b t2 =>
      have ha := h a (by simp)
      have hb95 : (a == 95) = false := beq_eq_false_iff_ne.mpr (by omega)
      unfold noDoubleUnderscore
      rw [ih (fun x hx => h x (List.mem_cons_of_mem _ hx)), hb95]
      rfl

theorem parseDigits_natDigits (n : Nat) : parseDigits (natDigits n) = some n := by
  obtain ⟨d, ds, hds⟩ := List.exists_cons_of_ne_nil (natDigits_ne_nil n)
  have hd : 48 ≤ d ∧ d ≤ 57 := natDigits_digits n d (by rw [hds]; simp)
  have hlast : 48 ≤ (natDigits n).getLastD 0 ∧ (natDigits n).getLastD 0 ≤ 57 :=
    natDigits_digits n _ (getLastD_mem (natDigits_ne_nil n))
  unfold parseDigits
  rw [if_neg (natDigits_ne_nil n), if_pos, List.filter_eq_self.mpr
    (fun b hb => decide_eq_true (natDigits_digits n b hb)), natDigits_foldl]
  rw [List.all_eq_true.mpr (fun b hb => by
      rw [decide_eq_true (natDigits_digits n b hb)]; rfl),
    noDoubleUnderscore_digits (natDigits_digits n)]
  rw [hds]
  rw [show (d :: ds).headD 0 = d from rfl, decide_eq_true hd, ← hds,
    decide_eq_true hlast]
  rfl

theorem parseInt_eq (bs : Bytes) :
    parseInt bs =
      match stripSpaces bs with
      | [] => none
      | b :: rest =>
        if b = 45 then (parseDigits rest).map (fun n => -(n : Int))
        else if b = 43 then (parseDigits rest).map (fun n => (n : Int))
        else (parseDigits (b :: rest)).map (fun n => (n : Int)) := rfl

theorem isSpaceByte_digit {b : Nat} (h : 48 ≤ b ∧ b ≤ 57) :
    isSpaceByte b = false := by
  unfold isSpaceByte
  rw [decide_eq_false (by omega), decide_eq_false (by omega),
    beq_eq_false_iff_ne.mpr (by omega : b ≠ 32)]
  rfl

theorem stripSpaces_eq_self {bs : Bytes}
    (h : ∀ b ∈ bs, isSpaceByte b = false) : stripSpaces bs = bs := by
  unfold stripSpaces
  have e1 : bs.dropWhile isSpaceByte = bs := by
    cases bs with
    | nil => rfl
    | cons a t => simp [List.dropWhile_cons, h a (by simp)]
  rw [e1]
  have e2 : bs.reverse.dropWhile isSpaceByte = bs.reverse := by
    cases hrev : bs.reverse with
    | nil => rfl
    | cons a t =>
      have ha : isSpaceByte a = false := h a (by
        rw [← List.mem_reverse, hrev]; simp)
      simp [List.dropWhile_cons, ha]
  rw [e2, List.reverse_reverse]

theorem intRepr_no_space (x : Int) : ∀ b ∈ intRepr x, isSpaceByte b = false := by
  unfold intRepr
  split
  · intro b hb
    rcases List.mem_cons.mp hb with hb | hb
    · rw [hb]; rfl
    · exact isSpaceByte_digit (natDigits_digits _ b hb)
  · intro b hb
    exact isSpaceByte_digit (natDigits_digits _ b hb)

theorem parseInt_intRepr (x : Int) : parseInt (intRepr x) = some x := by
  rw [parseInt_eq, stripSpaces_eq_self (intRepr_no_space x)]
  by_cases h : x < 0
  · rw [show intRepr x = 45 :: natDigits x.natAbs from by
      unfold intRepr; rw [if_pos h]]
    dsimp only
    rw [if_pos rfl, parseDigits_natDigits]
    have hx : ((x.natAbs : Int)) = -x := Int.ofNat_natAbs_of_nonpos (le_of_lt h)
    simp [hx]
  · rw [show intRepr x = natDigits x.natAbs from by
      unfold intRepr; rw [if_neg h]]
    obtain ⟨d, ds, hds⟩ := List.exists_cons_of_ne_nil (natDigits_ne_nil x.natAbs)
    have hd : 48 ≤ d ∧ d ≤ 57 := natDigits_digits x.natAbs d (by rw [hds]; simp)
    rw [hds]
    dsimp only
    rw [if_neg (by omega), if_neg (by omega), ← hds, parseDigits_natDigits]
    have hx : ((x.natAbs : Int)) = x := Int.natAbs_of_nonneg (by omega)
    simp [hx]

theorem readPstringAsInteger_encode {x : Int} (r : Bytes)
    (h : (intRepr x).length ≤ 255) :
    readPstringAsInteger (pstringBytes (intRepr x) ++ r) = .ok (x, r) := by
  unfold readPstringAsInteger
  rw [readPstring_encode r h]
  show (match parseInt (intRepr x) with
    | some n => Except.ok (n, r)
    | none => Except.error DecodeError.malformedInteger) = _
  rw [parseInt_intRepr]

theorem ascii_zero_eq : ascii "0" = intRepr 0 := by decide

theorem readOverhang_zero (r : Bytes) :
    readOverhang (pstringBytes (ascii "0") ++ r) = .ok ((none, none), r) := by
  unfold readOverhang
  rw [ascii_zero_eq, readPstringAsInteger_encode r (by decide)]
  simp

/-! ## Line splitting, dict and qualifier-line lemmas -/

theorem takeWhile_append_all {p : Nat → Bool} {l1 : Bytes} (l2 : Bytes)
    (h : ∀ a ∈ l1, p a = true) :
    (l1 ++ l2).takeWhile p = l1 ++ l2.takeWhile p := by
  induction l1 with
  | nil => rfl
  | cons b t ih =>
    have hb := h b (by simp)
    simp only [List.cons_append, List.takeWhile_cons, hb, if_true]
    rw [ih (fun a ha => h a (by simp [ha]))]

theorem dropWhile_append_all {p : Nat → Bool} {l1 : Bytes} (l2 : Bytes)
    (h : ∀ a ∈ l1, p a = true) :
    (l1 ++ l2).dropWhile p = l2.dropWhile p := by
  induction l1 with
  | nil => rfl
  | cons b t ih =>
    simp only [List.cons_append, List.dropWhile_cons, h b (by simp)]
    exact ih (fun a ha => h a (by simp [ha]))

theorem splitByte_cons (sep b : Nat) (rest : Bytes) :
    splitByte sep (b :: rest) =
      if b = sep then [] :: splitByte sep rest
      else
        match splitByte sep rest with
        | [] => [[b]]
        | h :: t => (b :: h) :: t := rfl

theorem splitByte_not_mem {sep : Nat} {l : Bytes} (h : sep ∉ l) :
    splitByte sep l = [l] := by
  induction l with
  | nil => rfl
  | cons b t ih =>
    have hb : b ≠ sep := fun hc => h (by simp [hc])
    rw [splitByte_cons, if_neg hb, ih (fun hc => h (by simp [hc]))]

theorem splitByte_append {sep : Nat} {l1 : Bytes} (l2 : Bytes) (h : sep ∉ l1) :
    splitByte sep (l1 ++ sep :: l2) = l1 :: splitByte sep l2 := by
  induction l1 with
  | nil => simp [splitByte]
  | cons b t ih =>
    have hb : b ≠ sep := fun hc => h (by simp [hc])
    show splitByte sep (b :: (t ++ sep :: l2)) = (b :: t) :: splitByte sep l2
    rw [splitByte_cons, if_neg hb, ih (fun hc => h (by simp [hc]))]

theorem splitByte_joinLinesCR {parts : List Bytes} (hne : parts ≠ [])
    (h : ∀ p ∈ parts, 13 ∉ p) :
    splitByte 13 (joinLinesCR parts) = parts := by
  induction parts with
  | nil => exact absurd rfl hne
  | cons l ls ih =>
    cases ls with
    | nil => exact splitByte_not_mem (h l (by simp))
    | cons l2 ls2 =>
      show splitByte 13 (l ++ 13 :: joinLinesCR (l2 :: ls2)) = _
      rw [splitByte_append _ (h l (by simp)),
        ih (by simp) (fun p hp => h p (List.mem_cons_of_mem _ hp))]

theorem dictGet_dictSet_self (q : List (Bytes × List Bytes)) (k : Bytes)
    (v : List Bytes) : dictGet (dictSet q k v) k = some v := by
  induction q with
  | nil => simp [dictSet, dictGet]
  | cons kv rest ih =>
    unfold dictSet
    by_cases hk : kv.1 = k
    · rw [if_pos hk]; simp [dictGet]
    · rw [if_neg hk]
      show dictGet (kv :: dictSet rest k v) k = some v
      unfold dictGet
      rw [if_neg hk, ih]

theorem dictGet_dictSet_ne (q : List (Bytes × List Bytes)) {k k' : Bytes}
    (v : List Bytes) (h : k ≠ k') :
    dictGet (dictSet q k v) k' = dictGet q k' := by
  induction q with
  | nil => simp [dictSet, dictGet, h]
  | cons kv rest ih =>
    unfold dictSet
    by_cases hk : kv.1 = k
    · rw [if_pos hk]
      show dictGet ((k, v) :: rest) k' = dictGet (kv :: rest) k'
      unfold dictGet
      rw [if_neg h, if_neg (by rw [hk]; exact h)]
    · rw [if_neg hk]
      show dictGet (kv :: dictSet rest k v) k' = dictGet (kv :: rest) k'
      unfold dictGet
      split
      · rfl
      · exact ih

theorem mem_dictSet {q : List (Bytes × List Bytes)} {k : Bytes}
    {v : List Bytes} {kv : Bytes × List Bytes} (h : kv ∈ dictSet q k v) :
    kv = (k, v) ∨ kv ∈ q := by
  induction q with
  | nil => simp [dictSet] at h; simp [h]
  | cons kv' rest ih =>
    unfold dictSet at h
    split at h
    · rcases List.mem_cons.mp h with h | h
      · exact .inl h
      · exact .inr (by simp [h])
    · rcases List.mem_cons.mp h with h | h
      · exact .inr (by simp [h])
      · rcases ih h with h | h
        · exact .inl h
        · exact .inr (by simp [h])

theorem matchQualifierLine_eq (line : Bytes) :
    matchQualifierLine line =
      match line.dropWhile (fun b => b != 61) with
      | 61 :: 34 :: rest2 =>
        if line.takeWhile (fun b => b != 61) = [] then none
        else if rest2.takeWhile (fun b => b != 34) = [] then none
        else
          match rest2.drop (rest2.takeWhile (fun b => b != 34)).length with
          | [] => some (line.takeWhile (fun b => b != 61),
              rest2.takeWhile (fun b => b != 34))
          | [34] => some (line.takeWhile (fun b => b != 61),
              rest2.takeWhile (fun b => b != 34))
          | [34, 10] => some (line.takeWhile (fun b => b != 61),
              rest2.takeWhile (fun b => b != 34))
          | _ => none
      | _ => none := rfl

theorem matchQualifierLine_mk {k v : Bytes} (hk : k ≠ []) (hk61 : 61 ∉ k)
    (hv : v ≠ []) (hv34 : 34 ∉ v) :
    matchQualifierLine (mkQualLine k v) = some (k, v) := by
  have hkp : ∀ a ∈ k, (a != 61) = true := by
    intro a ha
    exact bne_iff_ne.mpr (fun hc => hk61 (hc ▸ ha))
  have hvp : ∀ a ∈ v, (a != 34) = true := by
    intro a ha
    exact bne_iff_ne.mpr (fun hc => hv34 (hc ▸ ha))
  have h2 : (mkQualLine k v).dropWhile (fun b => b != 61) = 61 :: 34 :: (v ++ [34]) := by
    unfold mkQualLine
    rw [dropWhile_append_all _ hkp]
    simp [List.dropWhile_cons]
  have h1 : (mkQualLine k v).takeWhile (fun b => b != 61) = k := by
    unfold mkQualLine
    rw [takeWhile_append_all _ hkp]
    simp [List.takeWhile_cons]
  have h3 : (v ++ [34]).takeWhile (fun b => b != 34) = v := by
    rw [takeWhile_append_all _ hvp]
    simp [List.takeWhile_cons]
  have h4 : (v ++ [34]).drop v.length = [34] := List.drop_left v [34]
  rw [matchQualifierLine_eq, h2]
  simp only [h1, h3, if_neg hk, if_neg hv, h4]

theorem matchQualifierLine_mk_newline {k v : Bytes} (hk : k ≠ []) (hk61 : 61 ∉ k)
    (hv : v ≠ []) (hv34 : 34 ∉ v) :
    matchQualifierLine (mkQualLine k v ++ [10]) = some (k, v) := by
  have hkp : ∀ a ∈ k, (a != 61) = true := by
    intro a ha
    exact bne_iff_ne.mpr (fun hc => hk61 (hc ▸ ha))
  have hvp : ∀ a ∈ v, (a != 34) = true := by
    intro a ha
    exact bne_iff_ne.mpr (fun hc => hv34 (hc ▸ ha))
  have heq : mkQualLine k v ++ [10] = k ++ (61 :: 34 :: (v ++ [34, 10])) := by
    unfold mkQualLine
    simp
  have h2 : (k ++ (61 :: 34 :: (v ++ [34, 10]))).dropWhile (fun b => b != 61)
      = 61 :: 34 :: (v ++ [34, 10]) := by
    rw [dropWhile_append_all _ hkp]
    simp [List.dropWhile_cons]
  have h1 : (k ++ (61 :: 34 :: (v ++ [34, 10]))).takeWhile (fun b => b != 61) = k := by
    rw [takeWhile_append_all _ hkp]
    simp [List.takeWhile_cons]
  have h3 : (v ++ [34, 10]).takeWhile (fun b => b != 34) = v := by
    rw [takeWhile_append_all _ hvp]
    simp [List.takeWhile_cons]
  have h4 : (v ++ [34, 10]).drop v.length = [34, 10] := List.drop_left v [34, 10]
  rw [heq, matchQualifierLine_eq, h2]
  simp only [h1, h3, if_neg hk, if_neg hv, h4]

theorem mkQualLine_takeWhile {k : Bytes} (v : Bytes) (hk61 : 61 ∉ k) :
    (mkQualLine k v).takeWhile (fun b => b != 61) = k := by
  unfold mkQualLine
  have hkp : ∀ a ∈ k, (a != 61) = true := by
    intro a ha
    refine bne_iff_ne.mpr (fun hc => hk61 ?_)
    rw [← hc]
    exact ha
  rw [takeWhile_append_all _ hkp]
  simp [List.takeWhile_cons]

theorem matchQualifierLine_key {line k' v' : Bytes}
    (h : matchQualifierLine line = some (k', v')) :
    k' = line.takeWhile (fun b => b != 61) := by
  rw [matchQualifierLine_eq] at h
  split at h
  · split at h
    · exact absurd h (by simp)
    · split at h
      · exact absurd h (by simp)
      · split at h
        · injection h with h'
          exact (congrArg Prod.fst h').symm
        · injection h with h'
          exact (congrArg Prod.fst h').symm
        · injection h with h'
          exact (congrArg Prod.fst h').symm
        · exact absurd h (by simp)
  · exact absurd h (by simp)

/-- A line whose successful match would assign a key different from
`key`, folded through `descStep`, leaves `key`'s binding unchanged
(`key` must also differ from the `note` fallback key). -/
theorem foldl_descStep_preserves (lines : List Bytes) (q : List (Bytes × List Bytes))
    (key : Bytes) (hnote : key ≠ ascii "note")
    (h : ∀ l ∈ lines, ∀ k v, matchQualifierLine l = some (k, v) → k ≠ key) :
    dictGet (lines.foldl descStep q) key = dictGet q key := by
  induction lines generalizing q with
  | nil => rfl
  | cons l ls ih =>
    rw [List.foldl_cons, ih _ (fun l' hl' => h l' (List.mem_cons_of_mem _ hl'))]
    unfold descStep
    split
    · next k v heq => exact dictGet_dictSet_ne q _ (h l (by simp) k v heq)
    · split
      · rfl
      · exact dictGet_dictSet_ne q _ (Ne.symm hnote)

theorem mem_foldl_descStep {lines : List Bytes} {q : List (Bytes × List Bytes)}
    (h : ∀ kv ∈ q, kv.2.length = 1) :
    ∀ kv ∈ lines.foldl descStep q, kv.2.length = 1 := by
  induction lines generalizing q with
  | nil => exact h
  | cons l ls ih =>
    rw [List.foldl_cons]
    apply ih
    intro kv hkv
    unfold descStep at hkv
    split at hkv
    · rcases mem_dictSet hkv with h' | h'
      · rw [h']; rfl
      · exact h kv h'
    · split at hkv
      · exact h kv hkv
      · rcases mem_dictSet hkv with h' | h'
        · rw [h']; rfl
        · exact h kv h'

/-- Every part the writer synthesizes contains a quote byte and an
equals byte, so it is non-empty; if its key is clean (no `=`), a
successful match on it recovers exactly that key. -/
theorem descParts_spec {f : Feature}
    (hq : ∀ kv ∈ f.qualifiers, kv.1 ≠ ascii "label" → kv.1 ≠ ascii "translation" →
      61 ∉ kv.1 ∧ 34 ∉ kv.1 ∧ 13 ∉ kv.1 ∧ ∀ v ∈ kv.2, 34 ∉ v ∧ 13 ∉ v) :
    ∀ part ∈ descParts f, 13 ∉ part ∧ part ≠ [] ∧
      ∃ k v, part = mkQualLine k v ∧ 61 ∉ k ∧ k ≠ ascii "label" := by
  intro part hpart
  unfold descParts at hpart
  rw [List.mem_flatMap] at hpart
  obtain ⟨kv, hkv, hpart⟩ := hpart
  rw [List.mem_filter] at hkv
  obtain ⟨hkvq, hkvne⟩ := hkv
  rw [List.mem_map] at hpart
  obtain ⟨v, hv, rfl⟩ := hpart
  have hne1 : kv.1 ≠ ascii "label" := by
    intro hc; rw [hc] at hkvne; simp at hkvne
  have hne2 : kv.1 ≠ ascii "translation" := by
    intro hc; rw [hc] at hkvne; simp at hkvne
  obtain ⟨h61, h34, h13, hvals⟩ := hq kv hkvq hne1 hne2
  obtain ⟨hv34, hv13⟩ := hvals v hv
  refine ⟨?_, ?_, ?_⟩
  · unfold mkQualLine
    intro hc
    rcases List.mem_append.mp hc with hc | hc
    · exact h13 hc
    · have h2 : (13 : Nat) ∈ 61 :: 34 :: (v ++ [34]) := hc
      simp at h2
      exact hv13 h2
  · unfold mkQualLine
    intro hc
    exact absurd (congrArg List.length hc) (by simp)
  · exact ⟨kv.1, v, rfl, h61, hne1⟩

theorem splitByte_ne_nil (sep : Nat) (bs : Bytes) : splitByte sep bs ≠ [] := by
  cases bs with
  | nil => simp [splitByte]
  | cons b t =>
    rw [splitByte_cons]
    split
    · simp
    · split <;> simp

/-- Splitting a prefix of a byte list gives the intact leading lines of
the full split, plus one final line that is a prefix of the
corresponding full line. -/
theorem splitByte_take (sep : Nat) (bs : Bytes) (m : Nat) :
    ∃ done cut cutFull restLines t,
      splitByte sep bs = done ++ cutFull :: restLines
      ∧ splitByte sep (bs.take m) = done ++ [cut]
      ∧ cutFull = cut ++ t := by
  induction bs generalizing m with
  | nil =>
    refine ⟨[], [], [], [], [], rfl, ?_, rfl⟩
    rw [List.take_nil]
    rfl
  | cons b rest ih =>
    cases m with
    | zero =>
      obtain ⟨L, LS, hL⟩ := List.exists_cons_of_ne_nil (splitByte_ne_nil sep (b :: rest))
      exact ⟨[], [], L, LS, L, by rw [hL]; rfl, rfl, rfl⟩
    | succ m' =>
      obtain ⟨done, cut, cutFull, restL, t, h1, h2, ht⟩ := ih m'
      by_cases hb : b = sep
      · refine ⟨[] :: done, cut, cutFull, restL, t, ?_, ?_, ht⟩
        · rw [splitByte_cons, if_pos hb, h1]
          rfl
        · rw [List.take_succ_cons, splitByte_cons, if_pos hb, h2]
          rfl
      · cases done with
        | nil =>
          refine ⟨[], b :: cut, b :: cutFull, restL, t, ?_, ?_, by rw [ht]; rfl⟩
          · rw [splitByte_cons, if_neg hb, h1]
            rfl
          · rw [List.take_succ_cons, splitByte_cons, if_neg hb, h2]
            rfl
        | cons d0 ds =>
          refine ⟨(b :: d0) :: ds, cut, cutFull, restL, t, ?_, ?_, ht⟩
          · rw [splitByte_cons, if_neg hb, h1]
            rfl
          · rw [List.take_succ_cons, splitByte_cons, if_neg hb, h2]
            rfl

/-- A successful qualifier match on any prefix of a clean-keyed
`key="value"` piece recovers exactly that key: a proper prefix of the
key part has no `=` and cannot match at all, and a longer prefix still
has the full key before its first `=`. -/
theorem match_prefix_mkQualLine {k v P t : Bytes} (hk61 : 61 ∉ k)
    (hpart : mkQualLine k v = P ++ t) {k' v' : Bytes}
    (hm : matchQualifierLine P = some (k', v')) : k' = k := by
  have hP : P = (mkQualLine k v).take P.length := by
    rw [hpart, List.take_left]
  by_cases hlen : P.length ≤ k.length
  · exfalso
    have hPk : P = k.take P.length := by
      rw [hP]
      unfold mkQualLine
      rw [List.take_append_eq_append_take, Nat.sub_eq_zero_of_le hlen]
      simp
    have h61 : ∀ b ∈ P, (b != 61) = true := by
      intro b hb
      refine bne_iff_ne.mpr (fun hc => hk61 ?_)
      rw [← hc]
      rw [hPk] at hb
      exact List.mem_of_mem_take hb
    rw [matchQualifierLine_eq, List.dropWhile_eq_nil_iff.mpr h61] at hm
    exact absurd hm (by simp)
  · push_neg at hlen
    have hkp : ∀ a ∈ k, (a != 61) = true := fun a ha =>
      bne_iff_ne.mpr (fun hc => hk61 (by rw [← hc]; exact ha))
    have hPk : P = k ++ (61 :: 34 :: (v ++ [34])).take (P.length - k.length) := by
      conv_lhs => rw [hP]
      unfold mkQualLine
      rw [List.take_append_eq_append_take, List.take_of_length_le (by omega)]
    obtain ⟨n, hn⟩ : ∃ n, P.length - k.length = n + 1 :=
      ⟨P.length - k.length - 1, by omega⟩
    rw [hn, List.take_succ_cons] at hPk
    rw [matchQualifierLine_key hm, hPk, takeWhile_append_all _ hkp]
    rw [List.takeWhile_cons]
    simp

/-- Parsing any prefix of the writer-synthesized description (in
particular its 255-byte truncation) never touches the `label` binding
when the qualifier keys and values are clean. -/
theorem parse_wireDescription_take_label (f : Feature) (m : Nat)
    (hq : ∀ kv ∈ f.qualifiers, kv.1 ≠ ascii "label" → kv.1 ≠ ascii "translation" →
      61 ∉ kv.1 ∧ 34 ∉ kv.1 ∧ 13 ∉ kv.1 ∧ ∀ v ∈ kv.2, 34 ∉ v ∧ 13 ∉ v)
    (q0 : List (Bytes × List Bytes)) :
    dictGet (parseFeatureDescription ((featureWireDescription f).take m) q0)
      (ascii "label") = dictGet q0 (ascii "label") := by
  have hspec := descParts_spec hq
  unfold parseFeatureDescription featureWireDescription
  by_cases hnil : descParts f = []
  · rw [hnil, show joinLinesCR ([] : List Bytes) = [] from rfl, List.take_nil]
    rfl
  · have hsplit : splitByte 13 (joinLinesCR (descParts f)) = descParts f :=
      splitByte_joinLinesCR hnil (fun p hp => (hspec p hp).1)
    obtain ⟨done, cut, cutFull, restL, t, h1, h2, ht⟩ :=
      splitByte_take 13 (joinLinesCR (descParts f)) m
    rw [h2]
    apply foldl_descStep_preserves _ _ _ (by decide)
    intro l hl k' v' hm
    have hl' : l ∈ done ++ [cut] := List.mem_of_mem_filter hl
    rcases List.mem_append.mp hl' with hdone | hcut
    · have hmem : l ∈ descParts f := by
        rw [← hsplit, h1]
        exact List.mem_append_left _ hdone
      obtain ⟨k0, v0, hl0, h61, hk0⟩ := (hspec l hmem).2.2
      rw [match_prefix_mkQualLine h61
        (show mkQualLine k0 v0 = l ++ [] from by rw [hl0, List.append_nil]) hm]
      exact hk0
    · have hlcut : l = cut := List.mem_singleton.mp hcut
      have hcf : cutFull ∈ descParts f := by
        rw [← hsplit, h1]
        exact List.mem_append_right _ (List.mem_cons_self _ _)
      obtain ⟨k0, v0, hl0, h61, hk0⟩ := (hspec cutFull hcf).2.2
      rw [match_prefix_mkQualLine h61
        (show mkQualLine k0 v0 = l ++ t from by rw [← hl0, ht, hlcut]) hm]
      exact hk0

/-! ## Feature-level round trip -/

theorem Position.eq_exact {p : Position} (h : p.isExact = true) :
    p = .exact p.position := by
  cases p with
  | exact _ => rfl
  | fuzzy _ => exact absurd h (by simp [Position.isExact])

theorem featureWire_forward (f : Feature) (h : f.strand ≠ -1) :
    featureWire f = (f.startPos.position + 1, f.endPos.position, 1) := by
  unfold featureWire
  rw [if_neg h]

theorem featureWire_reverse (f : Feature) (h : f.strand = -1) :
    featureWire f = (f.endPos.position, f.startPos.position + 1, 0) := by
  unfold featureWire
  rw [if_pos h]

theorem writeFeature_bytes_assoc (f : Feature) (rest : Bytes) :
    (writeFeature f).1 ++ rest
      = pstringBytes (featureLabel f)
        ++ (pstringBytes (featureWireDescription f)
        ++ (pstringBytes f.type
        ++ (pstringBytes (intRepr (featureWire f).1)
        ++ (pstringBytes (intRepr (featureWire f).2.1)
        ++ ([(featureWire f).2.2, 1, 0, 1]
        ++ (pstringBytes (ascii "127,127,127") ++ rest)))))) := by
  unfold writeFeature
  simp [List.append_assoc]

theorem featureLabel_parse (f : Feature)
    (hq : ∀ kv ∈ f.qualifiers, kv.1 ≠ ascii "label" → kv.1 ≠ ascii "translation" →
      61 ∉ kv.1 ∧ 34 ∉ kv.1 ∧ 13 ∉ kv.1 ∧ ∀ v ∈ kv.2, 34 ∉ v ∧ 13 ∉ v) :
    ((dictGet (parseFeatureDescription ((featureWireDescription f).take 255)
        (if featureLabel f ≠ [] then [(ascii "label", [featureLabel f])] else []))
      (ascii "label")).getD [[]]).headD [] = featureLabel f := by
  rw [parse_wireDescription_take_label f 255 hq]
  by_cases h : featureLabel f = []
  · rw [if_neg (by simp [h]), h]
    rfl
  · rw [if_pos h]
    simp [dictGet]

theorem readFeature_writeFeature (f : Feature) (hf : GoodFeature f) (rest : Bytes) :
    ∃ f', readFeature ((writeFeature f).1 ++ rest) = .ok (f', rest)
      ∧ featureView f' = featureView f := by
  have htype : (if f.type = [] then ascii "misc_feature" else f.type) = f.type :=
    if_neg hf.typeNe
  have hstart : f.startPos.position + 1 - 1 = f.startPos.position := by omega
  rw [writeFeature_bytes_assoc]
  unfold readFeature
  rw [readPstring_encode _ hf.labelLen]
  dsimp only
  rw [readPstring_pstringBytes]
  dsimp only
  rw [readPstring_encode _ hf.typeLen]
  dsimp only
  rcases hf.strandOK with hs | hs
  · have hone : ∀ {α : Type} (a b : α), (if (1 : Nat) ≠ 0 then a else b) = a :=
      fun a b => if_pos (by decide)
    rw [featureWire_forward f (by rw [hs]; decide)]
    rw [readPstringAsInteger_encode _ hf.startLen]
    dsimp only
    rw [readPstringAsInteger_encode _ hf.endLen]
    dsimp only
    rw [readBytes_exact (pstringBytes (ascii "127,127,127") ++ rest)
        (by rfl : ([1, 1, 0, 1] : Bytes).length = 4)]
    dsimp only
    rw [readPstring_encode rest (by decide)]
    dsimp only
    simp only [List.headD_cons, hone, htype, hstart]
    refine ⟨_, rfl, ?_⟩
    unfold featureView
    dsimp only
    simp only [Prod.mk.injEq]
    exact ⟨(Position.eq_exact hf.startIsExact).symm,
      (Position.eq_exact hf.endIsExact).symm, hs.symm, trivial,
      featureLabel_parse f hf.qualsClean⟩
  · have hzero : ∀ {α : Type} (a b : α), (if (0 : Nat) ≠ 0 then a else b) = b :=
      fun a b => if_neg (by decide)
    rw [featureWire_reverse f hs]
    rw [readPstringAsInteger_encode _ hf.endLen]
    dsimp only
    rw [readPstringAsInteger_encode _ hf.startLen]
    dsimp only
    rw [readBytes_exact (pstringBytes (ascii "127,127,127") ++ rest)
        (by rfl : ([0, 1, 0, 1] : Bytes).length = 4)]
    dsimp only
    rw [readPstring_encode rest (by decide)]
    dsimp only
    simp only [List.headD_cons, hzero, htype, hstart]
    refine ⟨_, rfl, ?_⟩
    unfold featureView
    dsimp only
    simp only [Prod.mk.injEq]
    exact ⟨(Position.eq_exact hf.startIsExact).symm,
      (Position.eq_exact hf.endIsExact).symm, hs.symm, trivial,
      featureLabel_parse f hf.qualsClean⟩

theorem readFeatures_encode (fs : List Feature) (hfs : ∀ f ∈ fs, GoodFeature f)
    (rest : Bytes) :
    ∃ fs', readFeatures fs.length
        ((fs.map (fun f => (writeFeature f).1)).flatten ++ rest) = .ok (fs', rest)
      ∧ fs'.map featureView = fs.map featureView := by
  induction fs generalizing rest with
  | nil => exact ⟨[], rfl, rfl⟩
  | cons f fs ih =>
    obtain ⟨f', hf', hview⟩ := readFeature_writeFeature f (hfs f (by simp))
      ((fs.map (fun g => (writeFeature g).1)).flatten ++ rest)
    obtain ⟨fs', hfs', hviews⟩ := ih (fun g hg => hfs g (List.mem_cons_of_mem _ hg)) rest
    refine ⟨f' :: fs', ?_, ?_⟩
    · show readFeatures (fs.length + 1) _ = _
      unfold readFeatures
      rw [List.map_cons, List.flatten_cons, List.append_assoc, hf']
      dsimp only
      rw [hfs']
    · simp [hview, hviews]

/-! ## Header lemmas -/

theorem headerBytes_length (a b c d : Nat) : (headerBytes a b c d).length = 112 := rfl

theorem headerBytes_getD_0 (a b c d : Nat) : (headerBytes a b c d).getD 0 0 = 0 := rfl

theorem headerBytes_getD_1 (a b c d : Nat) : (headerBytes a b c d).getD 1 0 = a := rfl

theorem headerBytes_getD_2 (a b c d : Nat) : (headerBytes a b c d).getD 2 0 = b := rfl

theorem headerBytes_getD_28 (a b c d : Nat) :
    (headerBytes a b c d).getD 28 0 = c / 16777216 % 256 := rfl

theorem headerBytes_getD_29 (a b c d : Nat) :
    (headerBytes a b c d).getD 29 0 = c / 65536 % 256 := rfl

theorem headerBytes_getD_30 (a b c d : Nat) :
    (headerBytes a b c d).getD 30 0 = c / 256 % 256 := rfl

theorem headerBytes_getD_31 (a b c d : Nat) :
    (headerBytes a b c d).getD 31 0 = c % 256 := rfl

theorem headerBytes_getD_96 (a b c d : Nat) :
    (headerBytes a b c d).getD 96 0 = d / 16777216 % 256 := rfl

theorem headerBytes_getD_97 (a b c d : Nat) :
    (headerBytes a b c d).getD 97 0 = d / 65536 % 256 := rfl

theorem headerBytes_getD_98 (a b c d : Nat) :
    (headerBytes a b c d).getD 98 0 = d / 256 % 256 := rfl

theorem headerBytes_getD_99 (a b c d : Nat) :
    (headerBytes a b c d).getD 99 0 = d % 256 := rfl

theorem unpack32_pack32 (n : Nat) (h : n < 4294967296) :
    unpack32 (n / 16777216 % 256) (n / 65536 % 256) (n / 256 % 256) (n % 256) = n := by
  unfold unpack32
  omega

theorem seqType_roundtrip (m : MoleculeKind) :
    seqTypeOfCode (seqTypeCode m) = some m := by
  cases m <;> rfl

theorem topology_roundtrip (r : SeqRecord)
    (h : r.topology = some (ascii "linear") ∨ r.topology = some (ascii "circular")) :
    topologyOfCode (topologyCodeOf r) = r.topology := by
  rcases h with h | h
  · unfold topologyCodeOf
    rw [h]
    rw [if_neg (by decide : ¬((some (ascii "linear")).getD (ascii "linear") = ascii "circular"))]
    rfl
  · unfold topologyCodeOf
    rw [h]
    rw [if_pos (by decide : (some (ascii "circular")).getD (ascii "linear") = ascii "circular")]
    rfl

theorem keptFeatures_of_good (r : SeqRecord) (hfeat : r.features.length ≤ 255)
    (hgood : ∀ f ∈ r.features, GoodFeature f) :
    keptFeatures r = r.features := by
  unfold keptFeatures
  rw [List.filter_eq_self.mpr (fun f hf => by
    unfold isExactFeature
    rw [(hgood f hf).startIsExact, (hgood f hf).endIsExact]
    rfl)]
  exact List.take_of_length_le (le_trans hfeat (by omega))

theorem encodeRecord_bytes_assoc (r : SeqRecord) :
    (encodeRecord r).bytes
      = headerBytes (seqTypeCode r.molecule) (topologyCodeOf r) r.seq.length
          (commentOf r).length
        ++ (r.seq ++ (commentOf r ++ ([0]
        ++ (pstringBytes (ascii "0") ++ (pstringBytes (ascii "0")
        ++ ([(keptFeatures r).length]
        ++ ((keptFeatures r).map (fun f => (writeFeature f).1)).flatten)))))) := by
  unfold encodeRecord
  simp [List.map_map, List.append_assoc, Function.comp_def]

/-! ## Record-level round trip -/

theorem decode_encodeRecord (r : SeqRecord) (hseq : r.seq.length < 4294967296)
    (hcom : (commentOf r).length < 4294967296) (hfeat : r.features.length ≤ 255)
    (hgood : ∀ f ∈ r.features, GoodFeature f)
    (htopo : r.topology = some (ascii "linear") ∨ r.topology = some (ascii "circular")) :
    ∃ r', decode (encodeRecord r).bytes = .ok r'
      ∧ r'.seq = r.seq ∧ r'.molecule = r.molecule ∧ r'.topology = r.topology
      ∧ r'.features.map featureView = r.features.map featureView := by
  rw [encodeRecord_bytes_assoc, keptFeatures_of_good r hfeat hgood]
  unfold decode
  rw [readBytes_exact _ (headerBytes_length _ _ _ _)]
  dsimp only
  simp only [headerBytes_getD_0, headerBytes_getD_1, headerBytes_getD_2,
    headerBytes_getD_28, headerBytes_getD_29, headerBytes_getD_30, headerBytes_getD_31,
    headerBytes_getD_96, headerBytes_getD_97, headerBytes_getD_98, headerBytes_getD_99]
  rw [if_neg (by decide : ¬((0 : Nat) ≠ 0)), seqType_roundtrip r.molecule]
  dsimp only
  rw [unpack32_pack32 _ hseq, unpack32_pack32 _ hcom]
  rw [readBytes_exact _ rfl]
  dsimp only
  rw [readBytes_exact _ rfl]
  dsimp only
  simp only [List.cons_append, List.nil_append]
  unfold decodeOptionalSection
  dsimp only
  rw [readOverhang_zero]
  dsimp only
  rw [readOverhang_zero]
  dsimp only
  rw [readBytes_one]
  dsimp only
  simp only [List.headD_cons]
  obtain ⟨fs', hrf, hviews⟩ := readFeatures_encode r.features hgood []
  rw [List.append_nil] at hrf
  rw [hrf]
  dsimp only
  exact ⟨_, rfl, rfl, rfl, topology_roundtrip r htopo, hviews⟩

/-! ## Helper lemmas for the remaining claims -/

theorem readBytes_ge {n : Nat} {bs : Bytes} (h : n ≤ bs.length) :
    readBytes n bs = .ok (bs.take n, bs.drop n) := by
  simp [readBytes, Nat.not_lt.mpr h]

theorem getD_take {bs : Bytes} {i n : Nat} (h : i < n) (d : Nat) :
    (bs.take n).getD i d = bs.getD i d := by
  unfold List.getD
  rw [List.get?_eq_getElem?, List.get?_eq_getElem?, List.getElem?_take_of_lt h]

theorem seqTypeOfCode_none {c : Nat} (h : 4 < c) : seqTypeOfCode c = none := by
  match c, h with
  | n + 5, _ => rfl

theorem topologyOfCode_none {c : Nat} (h0 : c ≠ 0) (h1 : c ≠ 1) :
    topologyOfCode c = none := by
  match c, h0, h1 with
  | n + 2, _, _ => rfl

theorem readPstringAsInteger_parse {s : Bytes} {n : Int} (rest : Bytes)
    (hlen : s.length ≤ 255) (hparse : parseInt s = some n) :
    readPstringAsInteger (pstringBytes s ++ rest) = .ok (n, rest) := by
  unfold readPstringAsInteger
  rw [readPstring_encode rest hlen]
  show (match parseInt s with
    | some n => Except.ok (n, rest)
    | none => Except.error DecodeError.malformedInteger) = _
  rw [hparse]

theorem mkQualLine_ne_nil (k v : Bytes) : mkQualLine k v ≠ [] := by
  unfold mkQualLine
  intro hc
  exact absurd (congrArg List.length hc) (by simp)

theorem mkQualLine_not_mem_13 {k v : Bytes} (hk : 13 ∉ k) (hv : 13 ∉ v) :
    13 ∉ mkQualLine k v := by
  unfold mkQualLine
  intro hc
  rcases List.mem_append.mp hc with hc | hc
  · exact hk hc
  · have h2 : (13 : Nat) ∈ 61 :: 34 :: (v ++ [34]) := hc
    simp at h2
    exact hv h2

/-- `_parse_feature_description` on a single CR-free non-empty line is
one `descStep`. -/
theorem parseFeatureDescription_single {line : Bytes} (q : List (Bytes × List Bytes))
    (hne : line ≠ []) (h13 : 13 ∉ line) :
    parseFeatureDescription line q = descStep q line := by
  unfold parseFeatureDescription
  rw [splitByte_not_mem h13]
  rw [List.filter_eq_self.mpr (fun p hp => by
    simp at hp
    simp [hp, List.length_pos_iff_ne_nil, hne])]
  rfl

/-- `_parse_feature_description` on two CR-joined CR-free non-empty
lines is two `descStep`s. -/
theorem parseFeatureDescription_pair {l1 l2 : Bytes} (q : List (Bytes × List Bytes))
    (h1ne : l1 ≠ []) (h113 : 13 ∉ l1) (h2ne : l2 ≠ []) (h213 : 13 ∉ l2) :
    parseFeatureDescription (l1 ++ (13 :: l2)) q = descStep (descStep q l1) l2 := by
  unfold parseFeatureDescription
  rw [splitByte_append l2 h113, splitByte_not_mem h213]
  rw [List.filter_eq_self.mpr (fun p hp => by
    simp at hp
    rcases hp with hp | hp <;>
      simp [hp, List.length_pos_iff_ne_nil, h1ne, h2ne])]
  rfl

theorem descStep_match {q : List (Bytes × List Bytes)} {line k v : Bytes}
    (h : matchQualifierLine line = some (k, v)) :
    descStep q line = dictSet q k [v] := by
  unfold descStep
  rw [h]

theorem descStep_note {q : List (Bytes × List Bytes)} {line : Bytes}
    (hm : matchQualifierLine line = none) (hq : 34 ∉ line) :
    descStep q line = dictSet q (ascii "note") [line] := by
  unfold descStep
  rw [hm]
  exact if_neg hq

theorem descStep_drop {q : List (Bytes × List Bytes)} {line : Bytes}
    (hm : matchQualifierLine line = none) (hq : 34 ∈ line) :
    descStep q line = q := by
  unfold descStep
  rw [hm]
  exact if_pos hq

/-- Inversion of a successful `write_file`: the input was a single
record within the 4-byte length limits, and the output is its
serialization. -/
theorem encode_ok_inv {records : List SeqRecord} {res : EncodeResult}
    (h : encode records = .ok res) :
    ∃ r, records = [r] ∧ res = encodeRecord r
      ∧ r.seq.length < 4294967296 ∧ (commentOf r).length < 4294967296 := by
  match records with
  | [] => exact absurd h (by simp [encode])
  | _ :: _ :: _ => exact absurd h (by simp [encode])
  | [r] =>
    refine ⟨r, rfl, ?_⟩
    have h' : (if r.seq.length < 4294967296 ∧ (commentOf r).length < 4294967296
        then (if (keptFeatures r).any labelIndexErrorOn
          then (Except.error .labelIndexError : Except EncodeError EncodeResult)
          else .ok (encodeRecord r))
        else .error .packOverflow) = .ok res := h
    split at h'
    · next hc =>
      split at h'
      · exact absurd h' (by simp)
      · refine ⟨?_, hc.1, hc.2⟩
        injection h' with h''
        exact h''.symm
    · exact absurd h' (by simp)

/-! ## Claim theorems -/

/-- C5: encoding fails with a cardinality error on zero records and on
more than one record, in both cases producing no output bytes (the
`Except.error` result carries none, as the raised exception precedes any
write in the source); encoding proceeds only for exactly one record. -/
theorem xdna_C5_cardinality :
    encode [] = .error .emptyInput
    ∧ (∀ r1 r2 rest, encode (r1 :: r2 :: rest) = .error .tooManyRecords)
    ∧ (∀ records res, encode records = .ok res → ∃ r, records = [r]) := by
  refine ⟨rfl, fun r1 r2 rest => rfl, fun records res h => ?_⟩
  obtain ⟨r, hr, _⟩ := encode_ok_inv h
  exact ⟨r, hr⟩

/-- Witness for C5 at concrete inputs. -/
theorem xdna_C5_cardinality_witness :
    encode [] = .error .emptyInput
    ∧ encode [sampleRecord, sampleRecord] = .error .tooManyRecords
    ∧ ∃ r, [sampleRecord] = [r] :=
  ⟨xdna_C5_cardinality.1,
   xdna_C5_cardinality.2.1 sampleRecord sampleRecord [],
   xdna_C5_cardinality.2.2 [sampleRecord] (encResOf [sampleRecord]) rfl⟩

/-- C9: a read returning fewer bytes than requested is a fatal
truncated-input error, a Pascal string expected to hold a decimal
integer that does not parse as one is a fatal malformed-integer error,
and in particular any stream shorter than the 112-byte header fails the
whole decode (the `Except` result of `decode` carries no partial
record). -/
theorem xdna_C9_fatal :
    (∀ n bs, bs.length < n → readBytes n bs = .error .truncated)
    ∧ (∀ bs s rest, readPstring bs = .ok (s, rest) → parseInt s = none →
        readPstringAsInteger bs = .error .malformedInteger)
    ∧ (∀ bs, bs.length < 112 → decode bs = .error .truncated) := by
  refine ⟨fun n bs h => readBytes_short h, fun bs s rest h1 h2 => ?_, fun bs h => ?_⟩
  · unfold readPstringAsInteger
    rw [h1]
    show (match parseInt s with
      | some n => Except.ok (n, rest)
      | none => Except.error DecodeError.malformedInteger) = _
    rw [h2]
  · unfold decode
    rw [readBytes_short h]

/-- Witness for C9 at concrete inputs: a 2-byte stream read for 5 bytes,
the Pascal string `"AB"` read as an integer, and a 1-byte stream
decoded. -/
theorem xdna_C9_fatal_witness :
    readBytes 5 [1, 2] = .error .truncated
    ∧ readPstringAsInteger [2, 65, 66] = .error .malformedInteger
    ∧ decode [0] = .error .truncated :=
  ⟨xdna_C9_fatal.1 5 [1, 2] (by decide),
   xdna_C9_fatal.2.1 [2, 65, 66] [65, 66] [] rfl rfl,
   xdna_C9_fatal.2.2 [0] (by decide)⟩

/-- C8: reading an overhang parses a Pascal string as a signed decimal
length; length 0 yields `(None, None)` with no further bytes consumed,
a nonzero length consumes exactly `abs(length)` further bytes; the
three concrete byte examples of the spec evaluate as stated. -/
theorem xdna_C8_overhang :
    (∀ s n rest, s.length ≤ 255 → parseInt s = some n →
      (n = 0 → readOverhang (pstringBytes s ++ rest) = .ok ((none, none), rest))
      ∧ (∀ ov rest2, rest = ov ++ rest2 → ov.length = n.natAbs → n ≠ 0 →
          readOverhang (pstringBytes s ++ rest) = .ok ((some n, some ov), rest2)))
    ∧ readOverhang [1, 48] = .ok ((none, none), [])
    ∧ readOverhang [1, 50, 65, 65] = .ok ((some 2, some [65, 65]), [])
    ∧ readOverhang [2, 45, 49, 67] = .ok ((some (-1), some [67]), []) := by
  refine ⟨fun s n rest hlen hparse =>
    ⟨fun h0 => ?_, fun ov rest2 hrest hov hn0 => ?_⟩, rfl, rfl, rfl⟩
  · unfold readOverhang
    rw [readPstringAsInteger_parse rest hlen hparse]
    dsimp only
    rw [h0, if_neg (by decide : ¬((0 : Int) ≠ 0))]
  · unfold readOverhang
    rw [readPstringAsInteger_parse rest hlen hparse]
    dsimp only
    rw [if_pos hn0, hrest, readBytes_exact rest2 hov]

/-- Witness for C8's general part at concrete inputs. -/
theorem xdna_C8_overhang_witness :
    readOverhang (pstringBytes (ascii "2") ++ [65, 65, 99]) = .ok ((some 2, some [65, 65]), [99])
    ∧ readOverhang (pstringBytes (ascii "0") ++ [65]) = .ok ((none, none), [65]) :=
  ⟨(xdna_C8_overhang.1 (ascii "2") 2 [65, 65, 99] (by decide) (by decide)).2
      [65, 65] [99] rfl (by decide) (by decide),
   (xdna_C8_overhang.1 (ascii "0") 0 [65] (by decide) (by decide)).1 rfl⟩

set_option maxRecDepth 8000 in
set_option maxHeartbeats 1600000 in
/-- C4: decoding fails with the unsupported-version error whenever the
header's version byte is nonzero; with version 0 it fails with the
unknown-sequence-type error whenever the molecule-type byte is outside
{0,1,2,3,4}; an unrecognized topology byte does not fail but leaves the
topology field unset. -/
theorem xdna_C4_header :
    (∀ bs, 112 ≤ bs.length → bs.getD 0 0 ≠ 0 →
      decode bs = .error .unsupportedVersion)
    ∧ (∀ bs, 112 ≤ bs.length → bs.getD 0 0 = 0 → 4 < bs.getD 1 0 →
      decode bs = .error .unknownSequenceType)
    ∧ (∀ st tp m, seqTypeOfCode st = some m → tp ≠ 0 → tp ≠ 1 →
      decode (bareHeader st tp) = .ok
        { seq := [], molecule := m, id := [], name := [], description := [],
          topology := none, features := [] }) := by
  refine ⟨fun bs hlen hv => ?_, fun bs hlen hv ht => ?_,
    fun st tp m hst h0 h1 => ?_⟩
  · unfold decode
    rw [readBytes_ge hlen]
    dsimp only
    rw [@getD_take bs 0 112 (by omega) 0]
    rw [if_pos hv]
  · unfold decode
    rw [readBytes_ge hlen]
    dsimp only
    rw [@getD_take bs 0 112 (by omega) 0, @getD_take bs 1 112 (by omega) 0]
    rw [if_neg (show ¬(List.getD bs 0 0 ≠ 0) from by rw [hv]; decide)]
    rw [seqTypeOfCode_none ht]
  · unfold decode bareHeader
    rw [show (headerBytes st tp 0 0 : Bytes) = headerBytes st tp 0 0 ++ []
        from (List.append_nil _).symm,
      readBytes_exact [] (headerBytes_length st tp 0 0)]
    dsimp only
    rw [headerBytes_getD_0 st tp 0 0, headerBytes_getD_1 st tp 0 0,
      headerBytes_getD_2 st tp 0 0, headerBytes_getD_28 st tp 0 0,
      headerBytes_getD_29 st tp 0 0, headerBytes_getD_30 st tp 0 0,
      headerBytes_getD_31 st tp 0 0, headerBytes_getD_96 st tp 0 0,
      headerBytes_getD_97 st tp 0 0, headerBytes_getD_98 st tp 0 0,
      headerBytes_getD_99 st tp 0 0]
    rw [if_neg (by decide : ¬((0 : Nat) ≠ 0)), hst]
    dsimp only
    rw [show unpack32 (0 / 16777216 % 256) (0 / 65536 % 256) (0 / 256 % 256)
        (0 % 256) = 0 from rfl]
    rw [show readBytes 0 ([] : Bytes) = Except.ok ([], []) from rfl]
    dsimp only
    rw [show readBytes 0 ([] : Bytes) = Except.ok ([], []) from rfl]
    dsimp only
    rw [show decodeOptionalSection [] = Except.ok [] from rfl]
    dsimp only
    rw [topologyOfCode_none h0 h1]
    rfl

set_option maxRecDepth 8000 in
set_option maxHeartbeats 1600000 in
/-- Witness for C4: a version-1 stream, a type-code-9 stream, and a
valid header with topology byte 7. -/
theorem xdna_C4_header_witness :
    decode (List.replicate 113 1) = .error .unsupportedVersion
    ∧ decode (0 :: 9 :: List.replicate 111 0) = .error .unknownSequenceType
    ∧ decode (bareHeader 1 7) = .ok
        { seq := [], molecule := .dna, id := [], name := [], description := [],
          topology := none, features := [] } :=
  ⟨xdna_C4_header.1 (List.replicate 113 1) (by decide) (by decide),
   xdna_C4_header.2.1 (0 :: 9 :: List.replicate 111 0) (by decide) (by decide) (by decide),
   xdna_C4_header.2.2 1 7 .dna (by decide) (by decide) (by decide)⟩

/-- The warning list of a successful encode, in emission order. -/
theorem encodeRecord_warnings (r : SeqRecord) :
    (encodeRecord r).warnings =
      (if 0 < r.features.length - (r.features.filter isExactFeature).length
        then [EncodeWarning.droppedFuzzy
          (r.features.length - (r.features.filter isExactFeature).length)] else [])
      ++ (if 255 < (r.features.filter isExactFeature).length
        then [EncodeWarning.tooManyFeatures
          ((r.features.filter isExactFeature).length - 255)] else [])
      ++ (if ((keptFeatures r).map writeFeature).any (fun p => p.2) = true
        then [EncodeWarning.stringsTruncated] else []) := rfl

/-- C7: a P-string payload of length at most 255 is framed as its length
byte plus the bytes and recovered exactly by the P-string reader; a
longer payload is truncated to its first 255 bytes with the truncation
flag set and no failure; a successful encode reports the aggregated
truncation warning at most once, and exactly when some written feature
P-string was truncated. -/
theorem xdna_C7_pstring :
    (∀ s rest, s.length ≤ 255 → readPstring (pstringBytes s ++ rest) = .ok (s, rest))
    ∧ (∀ s : Bytes, 255 < s.length →
        pstringBytes s = 255 :: s.take 255 ∧ pstringTrunc s = true)
    ∧ (∀ records res, encode records = .ok res →
        res.warnings.count .stringsTruncated ≤ 1)
    ∧ (∀ r res, encode [r] = .ok res →
        (EncodeWarning.stringsTruncated ∈ res.warnings ↔
          ((keptFeatures r).map writeFeature).any (fun p => p.2) = true)) := by
  refine ⟨fun s rest h => readPstring_encode rest h, fun s h => ⟨?_, ?_⟩,
    fun records res h => ?_, fun r res h => ?_⟩
  · unfold pstringBytes
    rw [Nat.min_eq_right (by omega)]
  · unfold pstringTrunc
    simp [h]
  · obtain ⟨r, rfl, hres, _⟩ := encode_ok_inv h
    subst hres
    rw [encodeRecord_warnings, List.count_append, List.count_append]
    have c1 : List.count EncodeWarning.stringsTruncated
        (if 0 < r.features.length - (r.features.filter isExactFeature).length
          then [EncodeWarning.droppedFuzzy
            (r.features.length - (r.features.filter isExactFeature).length)]
          else []) = 0 := by
      split <;> simp [List.count_cons]
    have c2 : List.count EncodeWarning.stringsTruncated
        (if 255 < (r.features.filter isExactFeature).length
          then [EncodeWarning.tooManyFeatures
            ((r.features.filter isExactFeature).length - 255)]
          else []) = 0 := by
      split <;> simp [List.count_cons]
    have c3 : List.count EncodeWarning.stringsTruncated
        (if ((keptFeatures r).map writeFeature).any (fun p => p.2) = true
          then [EncodeWarning.stringsTruncated] else []) ≤ 1 := by
      split <;> simp [List.count_cons]
    omega
  · obtain ⟨r', hr, hres, _⟩ := encode_ok_inv h
    injection hr with h1 h2
    rw [← h1] at hres
    subst hres
    rw [encodeRecord_warnings]
    by_cases hc1 : 0 < r.features.length - (r.features.filter isExactFeature).length <;>
      by_cases hc2 : 255 < (r.features.filter isExactFeature).length <;>
      by_cases hc3 : ((keptFeatures r).map writeFeature).any (fun p => p.2) = true <;>
      simp [hc1, hc2, hc3]

/-- Witness for C7: the general parts applied to a 3-byte string and a
256-byte string, and the aggregated warning of a record carrying a
300-byte feature label. -/
theorem xdna_C7_pstring_witness :
    readPstring (pstringBytes [65, 66, 67] ++ [9]) = .ok ([65, 66, 67], [9])
    ∧ pstringBytes (List.replicate 256 65) = 255 :: (List.replicate 256 65).take 255
    ∧ (encResOf [truncRecord]).warnings.count .stringsTruncated ≤ 1
    ∧ (EncodeWarning.stringsTruncated ∈ (encResOf [truncRecord]).warnings ↔
        ((keptFeatures truncRecord).map writeFeature).any (fun p => p.2) = true) :=
  ⟨xdna_C7_pstring.1 [65, 66, 67] [9] (by decide),
   (xdna_C7_pstring.2.1 (List.replicate 256 65) (by rw [List.length_replicate]; omega)).1,
   xdna_C7_pstring.2.2.1 [truncRecord] (encResOf [truncRecord]) rfl,
   xdna_C7_pstring.2.2.2 truncRecord (encResOf [truncRecord]) rfl⟩

/-- C6: a successful encode first drops the features with non-exact
coordinates (warning with the drop count exactly when some were
dropped), keeps only the first 255 of the remainder in original order
(warning separately exactly when the cap applied), writes the
feature-count byte at the fixed offset after header, residues, comment,
marker and the two overhang placeholders, and that byte equals the
number of features actually written. -/
theorem xdna_C6_filterCap (r : SeqRecord) (res : EncodeResult)
    (h : encode [r] = .ok res) :
    keptFeatures r = (r.features.filter isExactFeature).take 255
    ∧ (keptFeatures r).length = min 255 (r.features.filter isExactFeature).length
    ∧ ((r.features.filter isExactFeature).length ≤ 255 →
        keptFeatures r = r.features.filter isExactFeature)
    ∧ (∃ pre, res.bytes = pre ++ ([(keptFeatures r).length]
          ++ ((keptFeatures r).map (fun f => (writeFeature f).1)).flatten)
        ∧ pre.length = 112 + r.seq.length + (commentOf r).length + 5)
    ∧ (EncodeWarning.droppedFuzzy
        (r.features.length - (r.features.filter isExactFeature).length) ∈ res.warnings
        ↔ (r.features.filter isExactFeature).length < r.features.length)
    ∧ (EncodeWarning.tooManyFeatures
        ((r.features.filter isExactFeature).length - 255) ∈ res.warnings
        ↔ 255 < (r.features.filter isExactFeature).length) := by
  obtain ⟨r', hr, hres, _⟩ := encode_ok_inv h
  injection hr with h1 h2
  rw [← h1] at hres
  subst hres
  have hfle := List.length_filter_le isExactFeature r.features
  refine ⟨rfl, List.length_take _ _, fun hle => List.take_of_length_le hle, ?_, ?_, ?_⟩
  · refine ⟨headerBytes (seqTypeCode r.molecule) (topologyCodeOf r) r.seq.length
        (commentOf r).length
      ++ (r.seq ++ (commentOf r ++ ([0] ++ (pstringBytes (ascii "0")
      ++ pstringBytes (ascii "0"))))), ?_, ?_⟩
    · rw [encodeRecord_bytes_assoc]
      simp [List.append_assoc]
    · simp only [List.length_append]
      rw [headerBytes_length]
      rw [show (pstringBytes (ascii "0")).length = 2 from rfl]
      rw [show ([0] : Bytes).length = 1 from rfl]
      omega
  · rw [encodeRecord_warnings]
    by_cases hc1 : 0 < r.features.length - (r.features.filter isExactFeature).length <;>
      by_cases hc2 : 255 < (r.features.filter isExactFeature).length <;>
      by_cases hc3 : ((keptFeatures r).map writeFeature).any (fun p => p.2) = true <;>
      simp [hc1, hc2, hc3] <;> omega
  · rw [encodeRecord_warnings]
    by_cases hc1 : 0 < r.features.length - (r.features.filter isExactFeature).length <;>
      by_cases hc2 : 255 < (r.features.filter isExactFeature).length <;>
      by_cases hc3 : ((keptFeatures r).map writeFeature).any (fun p => p.2) = true <;>
      simp [hc1, hc2, hc3]

/-- Witness for C6: a record with one exact-location feature and one
fuzzy-location feature. -/
theorem xdna_C6_filterCap_witness :
    keptFeatures truncRecord = (truncRecord.features.filter isExactFeature).take 255
    ∧ (keptFeatures truncRecord).length
        = min 255 (truncRecord.features.filter isExactFeature).length
    ∧ (∃ pre, (encResOf [truncRecord]).bytes = pre ++ ([(keptFeatures truncRecord).length]
          ++ ((keptFeatures truncRecord).map (fun f => (writeFeature f).1)).flatten)
        ∧ pre.length = 112 + truncRecord.seq.length + (commentOf truncRecord).length + 5)
    ∧ (EncodeWarning.droppedFuzzy
        (truncRecord.features.length
          - (truncRecord.features.filter isExactFeature).length)
        ∈ (encResOf [truncRecord]).warnings
        ↔ (truncRecord.features.filter isExactFeature).length
            < truncRecord.features.length) := by
  obtain ⟨a, b, c, d, e, f⟩ := xdna_C6_filterCap truncRecord (encResOf [truncRecord]) rfl
  exact ⟨a, b, d, e⟩

/-- Counterexample to C2 as stated: two `k="…"` lines with the same key
yield a one-element list holding the last value, not a two-element
list — assignment replaces, it does not append. -/
theorem xdna_C2_counterexample :
    dictGet (parseFeatureDescription (ascii "k=\"a\"\x0Dk=\"b\"") []) (ascii "k")
      = some [ascii "b"]
    ∧ (dictGet (parseFeatureDescription (ascii "k=\"a\"\x0Dk=\"b\"") [])
        (ascii "k")).map List.length ≠ some 2 := by
  constructor
  · rfl
  · decide

/-- C2 (amended): a line matching `key="value"` sets `qualifiers[key]`
to the one-element list `[value]`, replacing any earlier binding; the
regex anchor `$` also matches just before one trailing LF, so a
`key="value"` line with a single trailing newline sets the qualifier
the same way; a non-matching line without a quote sets
`qualifiers["note"]` to the one-element list holding the line; any
other line is dropped; the spec's label/note example evaluates as
stated; and two lines with the same key leave a one-element list
holding the last value. -/
theorem xdna_C2_parse :
    parseFeatureDescription (ascii "label=\"foo\"\x0Dnote text") []
      = [(ascii "label", [ascii "foo"]), (ascii "note", [ascii "note text"])]
    ∧ (∀ k v q, k ≠ [] → 61 ∉ k → 13 ∉ k → v ≠ [] → 34 ∉ v → 13 ∉ v →
        parseFeatureDescription (mkQualLine k v) q = dictSet q k [v])
    ∧ (∀ k v q, k ≠ [] → 61 ∉ k → 13 ∉ k → v ≠ [] → 34 ∉ v → 13 ∉ v →
        parseFeatureDescription (mkQualLine k v ++ [10]) q = dictSet q k [v])
    ∧ (∀ line q, line ≠ [] → 13 ∉ line → matchQualifierLine line = none →
        34 ∉ line → parseFeatureDescription line q = dictSet q (ascii "note") [line])
    ∧ (∀ line q, line ≠ [] → 13 ∉ line → matchQualifierLine line = none →
        34 ∈ line → parseFeatureDescription line q = q)
    ∧ (∀ k v w q, k ≠ [] → 61 ∉ k → 13 ∉ k → v ≠ [] → 34 ∉ v → 13 ∉ v →
        w ≠ [] → 34 ∉ w → 13 ∉ w →
        dictGet (parseFeatureDescription (mkQualLine k v ++ (13 :: mkQualLine k w)) q) k
          = some [w]) := by
  refine ⟨by decide, fun k v q hk hk61 hk13 hv hv34 hv13 => ?_,
    fun k v q hk hk61 hk13 hv hv34 hv13 => ?_,
    fun line q hne h13 hm h34 => ?_, fun line q hne h13 hm h34 => ?_,
    fun k v w q hk hk61 hk13 hv hv34 hv13 hw hw34 hw13 => ?_⟩
  · rw [parseFeatureDescription_single q (mkQualLine_ne_nil k v)
      (mkQualLine_not_mem_13 hk13 hv13)]
    exact descStep_match (matchQualifierLine_mk hk hk61 hv hv34)
  · rw [parseFeatureDescription_single q (by simp) (fun hc => by
      rcases List.mem_append.mp hc with hc | hc
      · exact mkQualLine_not_mem_13 hk13 hv13 hc
      · simp at hc)]
    exact descStep_match (matchQualifierLine_mk_newline hk hk61 hv hv34)
  · rw [parseFeatureDescription_single q hne h13]
    exact descStep_note hm h34
  · rw [parseFeatureDescription_single q hne h13]
    exact descStep_drop hm h34
  · rw [parseFeatureDescription_pair q (mkQualLine_ne_nil k v)
      (mkQualLine_not_mem_13 hk13 hv13) (mkQualLine_ne_nil k w)
      (mkQualLine_not_mem_13 hk13 hw13)]
    rw [descStep_match (matchQualifierLine_mk hk hk61 hv hv34),
      descStep_match (matchQualifierLine_mk hk hk61 hw hw34)]
    exact dictGet_dictSet_self _ _ _

/-- Witness for C2 (amended) at concrete inputs, including a line with
a trailing newline. -/
theorem xdna_C2_parse_witness :
    parseFeatureDescription (mkQualLine (ascii "gene") (ascii "abc")) []
      = dictSet [] (ascii "gene") [ascii "abc"]
    ∧ parseFeatureDescription (mkQualLine (ascii "gene") (ascii "abc") ++ [10]) []
      = dictSet [] (ascii "gene") [ascii "abc"]
    ∧ parseFeatureDescription (ascii "plain note") []
      = dictSet [] (ascii "note") [ascii "plain note"]
    ∧ dictGet (parseFeatureDescription
        (mkQualLine (ascii "k") (ascii "a") ++ (13 :: mkQualLine (ascii "k") (ascii "b")))
        []) (ascii "k") = some [ascii "b"] :=
  ⟨xdna_C2_parse.2.1 (ascii "gene") (ascii "abc") [] (by decide) (by decide)
      (by decide) (by decide) (by decide) (by decide),
   xdna_C2_parse.2.2.1 (ascii "gene") (ascii "abc") [] (by decide) (by decide)
      (by decide) (by decide) (by decide) (by decide),
   xdna_C2_parse.2.2.2.1 (ascii "plain note") [] (by decide) (by decide)
      (by decide) (by decide),
   xdna_C2_parse.2.2.2.2.2 (ascii "k") (ascii "a") (ascii "b") [] (by decide)
      (by decide) (by decide) (by decide) (by decide) (by decide) (by decide)
      (by decide) (by decide)⟩

/-- C10: every qualifier key of a decoded feature maps to a one-element
list, however many description lines carried that key; a later line
with the same key replaces the earlier value. -/
theorem xdna_C10_singleton :
    (∀ bs f rest, readFeature bs = .ok (f, rest) →
      ∀ kv ∈ f.qualifiers, kv.2.length = 1)
    ∧ (∀ k v w q, k ≠ [] → 61 ∉ k → 13 ∉ k → v ≠ [] → 34 ∉ v → 13 ∉ v →
        w ≠ [] → 34 ∉ w → 13 ∉ w →
        dictGet (parseFeatureDescription (mkQualLine k v ++ (13 :: mkQualLine k w)) q) k
          = some [w]) := by
  constructor
  · intro bs f rest h
    unfold readFeature at h
    split at h
    · exact absurd h (by simp)
    split at h
    · exact absurd h (by simp)
    split at h
    · exact absurd h (by simp)
    split at h
    · exact absurd h (by simp)
    split at h
    · exact absurd h (by simp)
    split at h
    · exact absurd h (by simp)
    split at h
    · exact absurd h (by simp)
    next name _ _ _ _ _ _ _ _ _ _ _ =>
      injection h with h'
      injection h' with h1 h2
      rw [← h1]
      apply mem_foldl_descStep
      intro kv hkv
      split at hkv
      · rw [List.mem_singleton.mp hkv]
        rfl
      · exact absurd hkv (by simp)
  · intro k v w q hk hk61 hk13 hv hv34 hv13 hw hw34 hw13
    rw [parseFeatureDescription_pair q (mkQualLine_ne_nil k v)
      (mkQualLine_not_mem_13 hk13 hv13) (mkQualLine_ne_nil k w)
      (mkQualLine_not_mem_13 hk13 hw13)]
    rw [descStep_match (matchQualifierLine_mk hk hk61 hv hv34),
      descStep_match (matchQualifierLine_mk hk hk61 hw hw34)]
    exact dictGet_dictSet_self _ _ _

/-- Witness for C10 at a concrete decoded feature. -/
theorem xdna_C10_singleton_witness :
    (∀ kv ∈ decodedGoodFeature.qualifiers, kv.2.length = 1)
    ∧ dictGet (parseFeatureDescription
        (mkQualLine (ascii "q") (ascii "x") ++ (13 :: mkQualLine (ascii "q") (ascii "y")))
        []) (ascii "q") = some [ascii "y"] :=
  ⟨xdna_C10_singleton.1 (writeFeature goodFeature).1 decodedGoodFeature [] rfl,
   xdna_C10_singleton.2 (ascii "q") (ascii "x") (ascii "y") [] (by decide)
      (by decide) (by decide) (by decide) (by decide) (by decide) (by decide)
      (by decide) (by decide)⟩

theorem featureWireBytes_assoc (name desc ty : Bytes) (s e : Int)
    (f1 b2 b3 b4 : Nat) (color rest : Bytes) :
    featureWireBytes name desc ty s e f1 b2 b3 b4 color ++ rest
      = pstringBytes name ++ (pstringBytes desc ++ (pstringBytes ty
        ++ (pstringBytes (intRepr s) ++ (pstringBytes (intRepr e)
        ++ ([f1, b2, b3, b4] ++ (pstringBytes color ++ rest)))))) := by
  unfold featureWireBytes
  simp [List.append_assoc]

/-- C3: decoding a wire feature with nonzero strand-flag byte and wire
coordinates `(s, e)` yields the half-open range `[s-1, e)` on the
forward strand; a zero flag byte swaps wire start/end before the same
conversion and yields the reverse strand; encoding mirrors this exactly
(wire `(logical start + 1, logical end)` with flag 1 when forward,
swapped with flag 0 when reverse). -/
theorem xdna_C3_strand :
    (∀ name desc ty (s e : Int) f1 b2 b3 b4 color rest,
      name.length ≤ 255 → desc.length ≤ 255 → ty.length ≤ 255 →
      (intRepr s).length ≤ 255 → (intRepr e).length ≤ 255 → color.length ≤ 255 →
      ∃ f', readFeature (featureWireBytes name desc ty s e f1 b2 b3 b4 color ++ rest)
          = .ok (f', rest)
        ∧ (f1 ≠ 0 → f'.startPos = .exact (s - 1) ∧ f'.endPos = .exact e
            ∧ f'.strand = 1)
        ∧ (f1 = 0 → f'.startPos = .exact (e - 1) ∧ f'.endPos = .exact s
            ∧ f'.strand = -1))
    ∧ (∀ f (p q : Int), f.startPos = .exact p → f.endPos = .exact q →
        (f.strand = -1 → featureWire f = (q, p + 1, 0))
        ∧ (f.strand ≠ -1 → featureWire f = (p + 1, q, 1))) := by
  constructor
  · intro name desc ty s e f1 b2 b3 b4 color rest hn hd ht hs he hc
    rw [featureWireBytes_assoc]
    unfold readFeature
    rw [readPstring_encode _ hn]
    dsimp only
    rw [readPstring_encode _ hd]
    dsimp only
    rw [readPstring_encode _ ht]
    dsimp only
    rw [readPstringAsInteger_encode _ hs]
    dsimp only
    rw [readPstringAsInteger_encode _ he]
    dsimp only
    rw [readBytes_exact (pstringBytes color ++ rest)
      (by rfl : ([f1, b2, b3, b4] : Bytes).length = 4)]
    dsimp only
    rw [readPstring_encode rest hc]
    dsimp only
    simp only [List.headD_cons]
    refine ⟨_, rfl, fun h1 => ?_, fun h0 => ?_⟩
    · exact ⟨by simp [h1], by simp [h1], by simp [h1]⟩
    · exact ⟨by simp [h0], by simp [h0], by simp [h0]⟩
  · intro f p q hp hq
    constructor
    · intro hs
      rw [featureWire_reverse f hs, hp, hq]
      simp [Position.position]
    · intro hs
      rw [featureWire_forward f hs, hp, hq]
      simp [Position.position]

/-- Witness for C3: wire `(5, 10)` with flag byte 1 decodes to the
range `[4, 10)` forward, and the reverse feature with logical range
`[4, 10)` encodes to wire `(10, 5)` with flag byte 0. -/
theorem xdna_C3_strand_witness :
    (∃ f', readFeature (featureWireBytes [] [] (ascii "t") 5 10 1 1 0 1
        (ascii "127,127,127") ++ []) = .ok (f', [])
      ∧ ((1 : Nat) ≠ 0 → f'.startPos = .exact (5 - 1) ∧ f'.endPos = .exact 10
          ∧ f'.strand = 1)
      ∧ ((1 : Nat) = 0 → f'.startPos = .exact (10 - 1) ∧ f'.endPos = .exact 5
          ∧ f'.strand = -1))
    ∧ featureWire goodFeature = (10, 4 + 1, 0) :=
  ⟨xdna_C3_strand.1 [] [] (ascii "t") 5 10 1 1 0 1 (ascii "127,127,127") []
      (by decide) (by decide) (by decide) (by decide) (by decide) (by decide),
   (xdna_C3_strand.2 goodFeature 4 10 rfl rfl).1 rfl⟩

set_option maxRecDepth 40000 in
set_option maxHeartbeats 1600000 in
/-- Counterexample to C1 as stated, in three parts, each a record
meeting every limit of the claim (exact coordinates, one feature,
topology set, strand forward).  First, a feature with an empty type
decodes with type `misc_feature`, not the empty string.  Second, a
feature with label `foo` and a `note` qualifier value containing a CR
and a quote encodes without error, but decoding yields label `evil`:
the re-synthesized description contains a `label="evil"` line that
overwrites the label.  Third, a feature ending at `10^255` encodes
without error, but its 256-digit coordinate text is truncated to 255
digits on the wire, so decoding yields end position `10^254`. -/
theorem xdna_C1_counterexample :
    (emptyTypeRecord.features.all isExactFeature = true
      ∧ emptyTypeRecord.features.length ≤ 255
      ∧ emptyTypeRecord.features.map Feature.type = [[]]
      ∧ encode [emptyTypeRecord] = .ok (encResOf [emptyTypeRecord])
      ∧ (decode (encResOf [emptyTypeRecord]).bytes).toOption.map
          (fun r => r.features.map Feature.type) = some [ascii "misc_feature"]
      ∧ ([] : Bytes) ≠ ascii "misc_feature")
    ∧ (labelClobberRecord.features.all isExactFeature = true
      ∧ labelClobberRecord.features.map featureLabel = [ascii "foo"]
      ∧ encode [labelClobberRecord] = .ok (encResOf [labelClobberRecord])
      ∧ (decode (encResOf [labelClobberRecord]).bytes).toOption.map
          (fun r => r.features.map featureLabel) = some [ascii "evil"]
      ∧ ascii "foo" ≠ ascii "evil")
    ∧ (hugeCoordRecord.features.all isExactFeature = true
      ∧ hugeCoordRecord.features.map Feature.endPos = [.exact (10 ^ 255)]
      ∧ encode [hugeCoordRecord] = .ok (encResOf [hugeCoordRecord])
      ∧ (decode (encResOf [hugeCoordRecord]).bytes).toOption.map
          (fun r => r.features.map Feature.endPos) = some [.exact (10 ^ 254)]
      ∧ Position.exact (10 ^ 255) ≠ .exact (10 ^ 254)) :=
  ⟨⟨by decide, by decide, by decide, rfl, rfl, by decide⟩,
   ⟨by decide, by decide, rfl, rfl, by decide⟩,
   ⟨by decide, by decide, rfl, rfl, by decide⟩⟩

/-- C1 (amended): for a record with exact-coordinate features whose wire
coordinate texts, label, synthesized description and non-empty type all
fit a Pascal string, strand forward or reverse, topology linear or
circular, and sequence and comment below the 4-byte length limit,
decoding the encoding of the single-record list reproduces the
residues, molecule kind, topology, and each feature's range, strand,
type and label, with features in the same order.  (An empty feature
type is the one exception forced by the counterexample: it decodes as
the default type.) -/
theorem xdna_C1_roundtrip (r : SeqRecord)
    (hseq : r.seq.length < 4294967296)
    (hcom : (commentOf r).length < 4294967296)
    (hfeat : r.features.length ≤ 255)
    (hgood : ∀ f ∈ r.features, GoodFeature f)
    (htopo : r.topology = some (ascii "linear") ∨ r.topology = some (ascii "circular")) :
    ∃ res r', encode [r] = .ok res ∧ decode res.bytes = .ok r'
      ∧ r'.seq = r.seq ∧ r'.molecule = r.molecule ∧ r'.topology = r.topology
      ∧ r'.features.map featureView = r.features.map featureView := by
  obtain ⟨r', h1, h2, h3, h4, h5⟩ := decode_encodeRecord r hseq hcom hfeat hgood htopo
  refine ⟨encodeRecord r, r', ?_, h1, h2, h3, h4, h5⟩
  show (if r.seq.length < 4294967296 ∧ (commentOf r).length < 4294967296
    then (if (keptFeatures r).any labelIndexErrorOn
      then (Except.error .labelIndexError : Except EncodeError EncodeResult)
      else .ok (encodeRecord r))
    else .error .packOverflow) = .ok (encodeRecord r)
  rw [if_pos ⟨hseq, hcom⟩, if_neg ?_]
  rw [keptFeatures_of_good r hfeat hgood]
  intro hc
  obtain ⟨f, hf, hfl⟩ := List.any_eq_true.mp hc
  rw [(hgood f hf).labelOk] at hfl
  exact Bool.false_ne_true hfl

/-- Witness for C1 (amended) at a concrete record with one
reverse-strand feature carrying a label and an extra qualifier. -/
theorem xdna_C1_roundtrip_witness :
    ∃ res r', encode [goodRecord] = .ok res ∧ decode res.bytes = .ok r'
      ∧ r'.seq = goodRecord.seq ∧ r'.molecule = goodRecord.molecule
      ∧ r'.topology = goodRecord.topology
      ∧ r'.features.map featureView = goodRecord.features.map featureView :=
  xdna_C1_roundtrip goodRecord (by decide) (by decide) (by decide)
    (by
      intro f hf
      rw [List.mem_singleton.mp hf]
      exact ⟨by decide, by decide, by decide, by decide, by decide,
        by decide, by decide, by decide, by decide, by decide⟩)
    (Or.inr rfl)

end Xdna
